import Mathlib

/-!
# templ: boundary extraction (`goexpression`), the brace-balanced scanner and the
switch parser

A shallow embedding of `parser/v2/goexpression/parse.go`, `parser/v2/jsparser.go`,
`parser/v2/goparser.go` and `parser/v2/switchexpressionparser.go`.

* Go strings are byte sequences (`List UInt8`); offsets and lengths are byte counts.
* A Go run-time panic (slice bounds, index out of range, nil dereference) is the
  outcome `none`.
* The host-language front end (`go/parser`, `go/ast`) is external to the repository:
  `parser.ParseFile` is a parameter, and the syntax tree holds exactly the node
  kinds, positions and fields that `parse.go` reads.
-/

namespace Templ

/-! ## Go strings -/

/-- A Go `string`: an immutable sequence of bytes. -/
abbrev GoString := List UInt8

/-- Bytes of a Go string literal: the UTF-8 encoding of its characters. -/
def lit (s : String) : GoString := s.toList.flatMap String.utf8EncodeChar

/-- Go slice expression `s[lo:hi]`; `none` is the panic "slice bounds out of range",
raised unless `0 ≤ lo ≤ hi ≤ len(s)`. -/
def slice (s : GoString) (lo hi : Int) : Option GoString :=
  if 0 ≤ lo ∧ lo ≤ hi ∧ hi ≤ (s.length : Int) then
    some ((s.drop lo.toNat).take (hi.toNat - lo.toNat))
  else none

/-- Library function `strings.HasPrefix(s, p)`: whether `s` begins with `p`. -/
def HasPrefix (s p : GoString) : Bool :=
  match p, s with
  | [], _ => true
  | _ :: _, [] => false
  | b :: p, a :: s => a == b && HasPrefix s p
termination_by structural p

/-- Library function `strings.TrimPrefix(s, p)`: `s` without the leading `p`, or `s`
itself when it does not start with `p`. -/
def TrimPrefix (s p : GoString) : GoString :=
  if HasPrefix s p then s.drop p.length else s

/-! ## The syntax tree of the front end (`go/token`, `go/ast`) -/

/-- Statements `ast.Stmt`, reduced to what `parse.go` reads: the keyword position, the
position `Body.Lbrace` of the body's opening brace, the clause list `Body.List` of a
switch, the `Colon` of a clause, and the value of the node's `End()` method. Every
other kind of statement (assignment, `BadStmt`, ...) is `OtherStmt`.
A position (`token.Pos`) is a natural number: with the fresh file set that
`parse.go` passes, it is the byte offset plus one, and `NoPos` is `0`. -/
inductive Stmt where
  | IfStmt (If : Nat) (BodyLbrace : Nat) (End : Nat)
  | ForStmt (For : Nat) (BodyLbrace : Nat) (End : Nat)
  | RangeStmt (For : Nat) (BodyLbrace : Nat) (End : Nat)
  | SwitchStmt (Switch : Nat) (BodyLbrace : Nat) (BodyList : List Stmt)
      (End : Nat)
  | TypeSwitchStmt (Switch : Nat) (BodyLbrace : Nat) (End : Nat)
  | CaseClause (Case : Nat) (Colon : Nat) (End : Nat)
  | ExprStmt (XPos : Nat) (XEnd : Nat)
  | OtherStmt (Pos : Nat) (End : Nat)

/-- Method `Pos()` of a statement node: the position of its first token. -/
def Stmt.Pos : Stmt → Nat
  | .IfStmt p _ _ => p
  | .ForStmt p _ _ => p
  | .RangeStmt p _ _ => p
  | .SwitchStmt p _ _ _ => p
  | .TypeSwitchStmt p _ _ => p
  | .CaseClause p _ _ => p
  | .ExprStmt p _ => p
  | .OtherStmt p _ => p

/-- Method `End()` of a statement node: the position right after the node. -/
def Stmt.End : Stmt → Nat
  | .IfStmt _ _ e => e
  | .ForStmt _ _ e => e
  | .RangeStmt _ _ e => e
  | .SwitchStmt _ _ _ e => e
  | .TypeSwitchStmt _ _ e => e
  | .CaseClause _ _ e => e
  | .ExprStmt _ e => e
  | .OtherStmt _ e => e

/-- Top-level declarations `ast.Decl`. A function declaration has its name
`Name.Name` and its body's statement list `Body.List`; `Body` is `none` for a
declaration without a body (a nil `*ast.BlockStmt`). -/
inductive Decl where
  | FuncDecl (Name : GoString) (Body : Option (List Stmt))
  | OtherDecl

/-- Source file node `ast.File`. -/
structure File where
  Decls : List Decl

/-- Error values returned by the package. -/
inductive GoError where
  | ErrContainerFuncNotFound
  | ErrExpectedNodeNotFound
  | parseErr (msg : String)
  deriving DecidableEq, Repr

/-- The front end `parser.ParseFile(token.NewFileSet(), "", src, parser.AllErrors)`:
a possibly nil tree together with a possibly nil error. -/
abbrev GoFrontEnd := GoString → Option File × Option GoError

/-- Result `(expr, err)` of the extraction functions; `none` is a run-time panic. -/
abbrev Outcome := Option (GoString × Option GoError)

/-! ## parse.go -/

/-- Function `getCode`: the source text of a node, `src[node.Pos()-1 : end]` with
`end = node.End()-1` clamped to `len(src)`; empty for invalid positions. -/
def getCode (src : GoString) (node : Stmt) : Option GoString :=
  if node.Pos = 0 ∨ node.End = 0 then some []
  else
    let end0 : Int := (node.End : Int) - 1
    let end1 : Int := if end0 > (src.length : Int) then (src.length : Int) else end0
    slice src ((node.Pos : Int) - 1) end1

/-- Expression `getCode(src, stmt)[:int(stmt.Body.Lbrace)-int(kw)+1]` shared by the
if, for and switch rules. -/
def headerCode (src : GoString) (stmt : Stmt) (kw lbrace : Nat) : Outcome :=
  match getCode src stmt with
  | none => none
  | some code =>
    match slice code 0 ((lbrace : Int) - (kw : Int) + 1) with
    | none => none
    | some expr => some (expr, none)

/-- Method `IfExtractor.Code`. -/
def IfExtractor.Code (src : GoString) : List Stmt → Outcome
  | [] => none
  | .IfStmt i l e :: _ => headerCode src (.IfStmt i l e) i l
  | _ :: _ => some ([], some .ErrExpectedNodeNotFound)

/-- Method `ForExtractor.Code`. -/
def ForExtractor.Code (src : GoString) : List Stmt → Outcome
  | [] => none
  | .ForStmt f l e :: _ => headerCode src (.ForStmt f l e) f l
  | .RangeStmt f l e :: _ => headerCode src (.RangeStmt f l e) f l
  | _ :: _ => some ([], some .ErrExpectedNodeNotFound)

/-- Method `SwitchExtractor.Code`. -/
def SwitchExtractor.Code (src : GoString) : List Stmt → Outcome
  | [] => none
  | .SwitchStmt s l b e :: _ => headerCode src (.SwitchStmt s l b e) s l
  | .TypeSwitchStmt s l e :: _ => headerCode src (.TypeSwitchStmt s l e) s l
  | _ :: _ => some ([], some .ErrExpectedNodeNotFound)

/-- Method `CaseExtractor.Code`: `src[stmt.Pos()-1 : stmt.Colon]` for the first
clause `sw.Body.List[0]` of the leading switch statement. -/
def CaseExtractor.Code (src : GoString) : List Stmt → Outcome
  | [] => none
  | .SwitchStmt _ _ [] _ :: _ => none
  | .SwitchStmt _ _ (.CaseClause c colon _ :: _) _ :: _ =>
    match slice src ((c : Int) - 1) (colon : Int) with
    | none => none
    | some expr => some (expr, none)
  | .SwitchStmt _ _ (_ :: _) _ :: _ => some ([], some .ErrExpectedNodeNotFound)
  | _ :: _ => some ([], some .ErrExpectedNodeNotFound)

/-- Method `ExprExtractor.Code`. -/
def ExprExtractor.Code (src : GoString) : List Stmt → Outcome
  | [] => none
  | .ExprStmt p e :: _ =>
    match getCode src (.ExprStmt p e) with
    | none => none
    | some expr => some (expr, none)
  | _ :: _ => some ([], some .ErrExpectedNodeNotFound)

/-- Interface `Extractor`, with its five implementations. -/
inductive Extractor where
  | IfExtractor
  | ForExtractor
  | SwitchExtractor
  | CaseExtractor
  | ExprExtractor
  deriving DecidableEq, Repr

/-- Interface method `Extractor.Code`. -/
def Extractor.Code : Extractor → GoString → List Stmt → Outcome
  | .IfExtractor => Templ.IfExtractor.Code
  | .ForExtractor => Templ.ForExtractor.Code
  | .SwitchExtractor => Templ.SwitchExtractor.Code
  | .CaseExtractor => Templ.CaseExtractor.Code
  | .ExprExtractor => Templ.ExprExtractor.Code

/-- The scaffold `"package main\nfunc templ_container() {\n"` that `parseExp` puts
before the content. -/
def scaffold : GoString := lit "package main\nfunc templ_container() \x7b\n"

/-- The traversal `ast.Inspect(node, f)` of `parseExp`, threading the captured
variables `(expr, err)`. The callback `f` returns `true` on every node that is not a
function declaration and `false` on each function declaration, which prunes that
declaration's subtree only: the walk goes on with the following declarations, so `f`
runs on every function declaration of the file, in order. -/
def parseExp.inspect (src : GoString) (extractor : Extractor) :
    List Decl → GoString × Option GoError → Outcome
  | [], st => some st
  | .FuncDecl name body :: rest, (expr, err) =>
    if name ≠ lit "templ_container" then
      parseExp.inspect src extractor rest (expr, some .ErrContainerFuncNotFound)
    else
      match body with
      | none => none
      | some list =>
        if list.length = 0 then parseExp.inspect src extractor rest (expr, err)
        else
          match extractor.Code src list with
          | none => none
          | some st => parseExp.inspect src extractor rest st
  | .OtherDecl :: rest, st => parseExp.inspect src extractor rest st

/-- Function `parseExp`. -/
def parseExp (ParseFile : GoFrontEnd) (content : GoString) (extractor : Extractor) :
    Outcome :=
  let src := scaffold ++ content
  match ParseFile src with
  | (none, parseErr) => some ([], parseErr)
  | (some node, _) => parseExp.inspect src extractor node.Decls ([], none)

/-- Character class `\s` of Go regular expressions: `[\t\n\f\r ]`. -/
def isSpace (b : UInt8) : Bool := b = 9 || b = 10 || b = 12 || b = 13 || b = 32

/-- The call `elseRegex.FindString(content)` for the pattern `^else\s+{`: the text of
the match, or the empty string when there is none. The whitespace run is maximal,
because the byte that has to follow it, `{`, is not whitespace. -/
def elseRegex.FindString (content : GoString) : GoString :=
  if HasPrefix content (lit "else") then
    let ws := (content.drop 4).takeWhile isSpace
    if ws ≠ [] ∧ HasPrefix (content.drop (4 + ws.length)) (lit "\x7b") then
      lit "else" ++ ws ++ lit "\x7b"
    else []
  else []

/-- The call `elseIfRegex.FindStringSubmatch(content)` for the pattern
`^(else\s+)if`: the list `[match, group 1]`, or the empty (nil) list when there is no
match. -/
def elseIfRegex.FindStringSubmatch (content : GoString) : List GoString :=
  if HasPrefix content (lit "else") then
    let ws := (content.drop 4).takeWhile isSpace
    if ws ≠ [] ∧ HasPrefix (content.drop (4 + ws.length)) (lit "if") then
      [lit "else" ++ ws ++ lit "if", lit "else" ++ ws]
    else []
  else []

/-- The tables `prefixRegexps` (`^if`, `^for`, `^switch`, `^(case|default)`, each used
through `MatchString`) and `prefixExtractors`, paired by index. -/
def prefixTable : List ((GoString → Bool) × Extractor) :=
  [ (fun c => HasPrefix c (lit "if"), .IfExtractor),
    (fun c => HasPrefix c (lit "for"), .ForExtractor),
    (fun c => HasPrefix c (lit "switch"), .SwitchExtractor),
    (fun c => HasPrefix c (lit "case") || HasPrefix c (lit "default"), .CaseExtractor) ]

/-- The loop `for i, re := range prefixRegexps`: the extractor of the first pattern
that matches `content`. -/
def prefixDispatch (content : GoString) :
    List ((GoString → Bool) × Extractor) → Option Extractor
  | [] => none
  | (re, ex) :: rest => if re content then some ex else prefixDispatch content rest

/-- Function `ParseExpression`. -/
def ParseExpression (ParseFile : GoFrontEnd) (content : GoString) : Outcome :=
  let m := elseRegex.FindString content
  if m ≠ [] then some (m, none)
  else
    let groups := elseIfRegex.FindStringSubmatch content
    if groups.length > 1 then
      let g1 := groups.getD 1 []
      match parseExp ParseFile (TrimPrefix content g1) .IfExtractor with
      | none => none
      | some (expr, some err) => some (expr, some err)
      | some (expr, none) => some (g1 ++ expr, none)
    else if HasPrefix content (lit "case") || HasPrefix content (lit "default") then
      parseExp ParseFile (lit "switch \x7b\n" ++ content ++ lit "\n\x7d") .CaseExtractor
    else
      match prefixDispatch content prefixTable with
      | some ex => parseExp ParseFile content ex
      | none =>
        match parseExp ParseFile content .ExprExtractor with
        | none => none
        | some (expr, some err) => some (expr, some err)
        | some (expr, none) =>
          match slice content (expr.length : Int) (content.length : Int) with
          | none => none
          | some suffix =>
            if HasPrefix suffix (lit "...") then some (expr ++ suffix.take 3, none)
            else some (expr, none)

/-- For the block-bodied control constructs of the if, for and switch rules: the
keyword the statement starts with, and the position `Body.Lbrace`. -/
def Stmt.header : Stmt → Option (GoString × Nat)
  | .IfStmt _ l _ => some (lit "if", l)
  | .ForStmt _ l _ => some (lit "for", l)
  | .RangeStmt _ l _ => some (lit "for", l)
  | .SwitchStmt _ l _ _ => some (lit "switch", l)
  | .TypeSwitchStmt _ l _ => some (lit "switch", l)
  | _ => none

/-! ## The cursor and the combinators of the imported package `github.com/a-h/parse`

The package is not part of the repository; what follows records the behaviour of the
cursor operations and combinators that `jsparser.go` and `expressionparser.go` call.
The cursor counts bytes. A parser either matches (`ok`), does not match (`noMatch`) or
reports an error; `outOfFuel` marks a loop that was cut off by its iteration bound. -/

/-- Cursor `parse.Input`: the text and the byte index of the next unread byte. -/
structure Input where
  s : GoString
  charIndex : Nat
  deriving DecidableEq, Repr

/-- Method `Input.Index`. -/
def Input.Index (pi : Input) : Nat := pi.charIndex

/-- Method `Input.Peek(n)` for `n ≥ 0`: the next `n` bytes, if that many are left. -/
def Input.Peek (pi : Input) (n : Nat) : Option GoString :=
  if pi.charIndex + n > pi.s.length then none
  else some ((pi.s.drop pi.charIndex).take n)

/-- Method `Input.Take(n)` for `n ≥ 0`: like `Peek`, and moves the cursor past the
bytes read. -/
def Input.Take (pi : Input) (n : Nat) : Option (GoString × Input) :=
  if pi.charIndex + n > pi.s.length then none
  else some ((pi.s.drop pi.charIndex).take n, { pi with charIndex := pi.charIndex + n })

/-- Method `Input.Seek(index)`: moves the cursor, unless the index is out of range. -/
def Input.Seek (pi : Input) (index : Nat) : Input :=
  if index > pi.s.length then pi else { pi with charIndex := index }

/-- Error value `parse.Error(msg, pos)`; of the position the byte index is kept. -/
structure ParseError where
  msg : String
  pos : Nat
  deriving DecidableEq, Repr

/-- Outcome `(match, ok, err)` of a parser together with the cursor it leaves. -/
inductive Res (α : Type) where
  | ok (v : α) (pi : Input)
  | noMatch (pi : Input)
  | error (e : ParseError) (pi : Input)
  | outOfFuel
  deriving DecidableEq, Repr

/-- Interface `parse.Parser[T]`. -/
abbrev Parser (α : Type) := Input → Res α

/-- Combinator `parse.String(m)`: matches the literal text `m`. -/
def parse.String (m : GoString) : Parser GoString := fun pi =>
  match pi.Peek m.length with
  | none => .noMatch pi
  | some got =>
    if got = m then
      match pi.Take m.length with
      | none => .noMatch pi
      | some (t, pi1) => .ok t pi1
    else .noMatch pi

/-- Combinator `parse.Rune(r)`: matches the text `string(r)`. The quote characters,
the backslash and the line feed are written by their code points below: `"` is 34,
the apostrophe 39, the backslash 92, the back quote 96 and the line feed 10. -/
def parse.Rune (r : Char) : Parser GoString := parse.String (String.utf8EncodeChar r)

/-- Combinator `parse.RuneWhere(f)`: peeks one byte `b` and takes it when the
predicate holds of `rune(b)`. -/
def parse.RuneWhere (f : UInt8 → Bool) : Parser GoString := fun pi =>
  match pi.Peek 1 with
  | some [b] =>
    if f b then
      match pi.Take 1 with
      | none => .noMatch pi
      | some (t, pi1) => .ok t pi1
    else .noMatch pi
  | _ => .noMatch pi

/-- Combinator `parse.RuneIn(s)`, for a set `s` of ASCII characters: the predicate
`strings.Contains(s, string(rune(b)))` holds exactly when the byte `b` occurs in `s`
(a byte from `0x80` on converts to a two-byte string). -/
def parse.RuneIn (s : GoString) : Parser GoString := parse.RuneWhere (fun b => s.contains b)

/-- Combinator `parse.RuneNotIn(s)`, for a set `s` of ASCII characters. -/
def parse.RuneNotIn (s : GoString) : Parser GoString :=
  parse.RuneWhere (fun b => !s.contains b)

/-- Combinator `parse.Any(parsers...)`: the first parser that matches or fails with an
error decides; each parser starts where the one before left the cursor. -/
def parse.Any {α : Type} : List (Parser α) → Parser α
  | [], pi => .noMatch pi
  | p :: ps, pi =>
    match p pi with
    | .noMatch pi1 => parse.Any ps pi1
    | r => r

/-- The loop of `parse.StringFrom` over its parsers; `start` is the index at entry. -/
def parse.StringFrom.run {α : Type} (start : Nat) : List (Parser α) → Parser GoString
  | [], pi =>
    let end1 := pi.Index
    match (pi.Seek start).Take (end1 - start) with
    | none => .noMatch (pi.Seek start)
    | some (t, pi1) => .ok t pi1
  | p :: ps, pi =>
    match p pi with
    | .ok _ pi1 => parse.StringFrom.run start ps pi1
    | .noMatch pi1 => .noMatch (pi1.Seek start)
    | .error e pi1 => .error e pi1
    | .outOfFuel => .outOfFuel

/-- Combinator `parse.StringFrom(parsers...)`: runs the parsers in sequence and
returns the text between the start and the end index; rewinds when one does not
match. -/
def parse.StringFrom {α : Type} (ps : List (Parser α)) : Parser GoString := fun pi =>
  parse.StringFrom.run pi.Index ps pi

/-- The loop of `parse.StringUntil`: try the delimiter; when it matches, rewind to
just before it and stop; otherwise take one byte and go on; at the end of the input
the parser does not match. -/
def parse.StringUntil.loop {α : Type} (delimiter : Parser α) : Nat → Input → Res Unit
  | 0, _ => .outOfFuel
  | fuel + 1, pi =>
    let beforeDelimiter := pi.Index
    match delimiter pi with
    | .ok _ pi1 => .ok () (pi1.Seek beforeDelimiter)
    | .error e pi1 => .error e pi1
    | .outOfFuel => .outOfFuel
    | .noMatch pi1 =>
      match pi1.Take 1 with
      | none => .noMatch pi1
      | some (_, pi2) => parse.StringUntil.loop delimiter fuel pi2

/-- Combinator `parse.StringUntil(delimiter)`: the text up to, and not including, the
first place where the delimiter matches. The loop needs at most one iteration per
remaining byte, and one more. -/
def parse.StringUntil {α : Type} (delimiter : Parser α) : Parser GoString := fun pi =>
  let start := pi.Index
  match parse.StringUntil.loop delimiter (pi.s.length - pi.charIndex + 1) pi with
  | .ok _ pi1 =>
    let end1 := pi1.Index
    match (pi1.Seek start).Take (end1 - start) with
    | none => .noMatch (pi1.Seek start)
    | some (t, pi2) => .ok t pi2
  | .noMatch pi1 => .noMatch pi1
  | .error e pi1 => .error e pi1
  | .outOfFuel => .outOfFuel

/-- The loop of `parse.Until`: one element has to match first; then the delimiter is
tried, and when it matches the cursor is put back just before it and the loop stops;
otherwise the loop goes on with the next element. At least one element is read, so
`Until` does not match right at the delimiter. -/
def parse.Until.loop {α β : Type} (parser : Parser α) (delimiter : Parser β) :
    Nat → List α → Input → Res (List α)
  | 0, _, _ => .outOfFuel
  | fuel + 1, acc, pi =>
    match parser pi with
    | .noMatch pi1 => .noMatch pi1
    | .error e pi1 => .error e pi1
    | .outOfFuel => .outOfFuel
    | .ok m pi1 =>
      let beforeDelimiter := pi1.Index
      match delimiter pi1 with
      | .ok _ pi2 => .ok (acc ++ [m]) (pi2.Seek beforeDelimiter)
      | .error e pi2 => .error e pi2
      | .outOfFuel => .outOfFuel
      | .noMatch pi2 => parse.Until.loop parser delimiter fuel (acc ++ [m]) pi2

/-- Combinator `parse.Until(parser, delimiter)`: one or more elements up to, and not
including, the delimiter. -/
def parse.Until {α β : Type} (parser : Parser α) (delimiter : Parser β) :
    Parser (List α) := fun pi =>
  parse.Until.loop parser delimiter (pi.s.length - pi.charIndex + 1) [] pi

/-- Combinator `parse.EOF`: matches when no byte is left, and consumes nothing. -/
def parse.EOF : Parser GoString := fun pi =>
  match pi.Peek 1 with
  | some _ => .noMatch pi
  | none => .ok [] pi

/-- Parser `parse.NewLine`: a Windows or Unix line break. -/
def parse.NewLine : Parser GoString :=
  parse.Any [parse.String (lit "\r\n"), parse.Rune (Char.ofNat 10)]

/-! ## expressionparser.go -/

/-- Parser `openBrace`. -/
def openBrace : Parser GoString := parse.String (lit "\x7b")

/-- Parser `closeBrace`. -/
def closeBrace : Parser GoString := parse.String (lit "\x7d")

/-- Parser `closeBraceWithPadding`. -/
def closeBraceWithPadding : Parser GoString := parse.String (lit " \x7d")

/-- Parser `closeBraceWithOptionalPadding`. -/
def closeBraceWithOptionalPadding : Parser GoString :=
  parse.Any [closeBraceWithPadding, closeBrace]

/-! ## jsparser.go -/

/-- Parser `jsSingleLineComment`. -/
def jsSingleLineComment : Parser GoString :=
  parse.StringFrom [parse.String (lit "//"),
    parse.StringUntil (parse.Any [parse.NewLine, parse.EOF])]

/-- Parser `jsOrGoMultiLineComment`. -/
def jsOrGoMultiLineComment : Parser GoString :=
  parse.StringFrom [parse.String (lit "/*"), parse.StringUntil (parse.String (lit "*/"))]

/-- Parser `octal_digit`. -/
def octal_digit : Parser GoString := parse.RuneIn (lit "01234567")

/-- Parser `hex_digit`. -/
def hex_digit : Parser GoString := parse.RuneIn (lit "0123456789ABCDEFabcdef")

/-- Parser `octal_byte_value`. -/
def octal_byte_value : Parser GoString :=
  parse.StringFrom [parse.String (lit "\\"), octal_digit, octal_digit, octal_digit]

/-- Parser `hex_byte_value`. -/
def hex_byte_value : Parser GoString :=
  parse.StringFrom [parse.String (lit "\\x"), hex_digit, hex_digit]

/-- Parser `byte_value`. -/
def byte_value : Parser GoString := parse.Any [octal_byte_value, hex_byte_value]

/-- Parser `little_u_value`. -/
def little_u_value : Parser GoString :=
  parse.StringFrom [parse.String (lit "\\u"), hex_digit, hex_digit, hex_digit, hex_digit]

/-- Parser `big_u_value`. -/
def big_u_value : Parser GoString :=
  parse.StringFrom [parse.String (lit "\\U"), hex_digit, hex_digit, hex_digit, hex_digit,
    hex_digit, hex_digit, hex_digit, hex_digit]

/-- Parser `escaped_char`. -/
def escaped_char : Parser GoString :=
  parse.StringFrom [parse.Rune (Char.ofNat 92),
    parse.Any [parse.Rune 'a', parse.Rune 'b', parse.Rune 'f', parse.Rune 'n', parse.Rune 'r',
      parse.Rune 't', parse.Rune 'v', parse.Rune (Char.ofNat 92), parse.Rune (Char.ofNat 39),
      parse.Rune (Char.ofNat 34)]]

/-- Parser `unicode_value_rune`. -/
def unicode_value_rune : Parser GoString :=
  parse.Any [little_u_value, big_u_value, escaped_char, parse.RuneNotIn (lit "\x27")]

/-- Parser `rune_lit`. -/
def rune_lit : Parser GoString :=
  parse.StringFrom [parse.Rune (Char.ofNat 39),
    parse.StringFrom
      [parse.Until (parse.Any [unicode_value_rune, byte_value]) (parse.Rune (Char.ofNat 39))],
    parse.Rune (Char.ofNat 39)]

/-- Parser `unicode_value_interpreted`. -/
def unicode_value_interpreted : Parser GoString :=
  parse.Any [little_u_value, big_u_value, escaped_char, parse.RuneNotIn (lit "\n\x22")]

/-- Parser `interpreted_string_lit`. -/
def interpreted_string_lit : Parser GoString :=
  parse.StringFrom [parse.Rune (Char.ofNat 34),
    parse.StringFrom
      [parse.Until (parse.Any [unicode_value_interpreted, byte_value])
        (parse.Rune (Char.ofNat 34))],
    parse.Rune (Char.ofNat 34)]

/-- Parser `unicode_value_raw`. -/
def unicode_value_raw : Parser GoString :=
  parse.Any [little_u_value, big_u_value, escaped_char, parse.RuneNotIn (lit "\x60")]

/-- Parser `raw_string_lit`. -/
def raw_string_lit : Parser GoString :=
  parse.StringFrom [parse.Rune (Char.ofNat 96),
    parse.StringFrom [parse.Until unicode_value_raw (parse.Rune (Char.ofNat 96))],
    parse.Rune (Char.ofNat 96)]

/-- Parser `string_lit`. -/
def string_lit : Parser GoString := parse.Any [interpreted_string_lit, raw_string_lit]

/-- Modelled from the spec: the type `Expression` and its constructor
`NewExpression(value, from, to)` are declared outside the sources at hand. By the spec
an Expression is the extracted text and a source span with a start and an end position,
each a byte offset with its line and column; of each position the byte offset is
kept here. -/
structure Expression where
  Value : GoString
  From : Nat
  To : Nat
  deriving DecidableEq, Repr

/-- What one pass through the body of the `for` loop of `jsExpressionParser.Parse`
does: go on with the next pass (`continue`), leave the loop (`break loop`), or return
from `Parse`. The variables carried are `braceCount`, the text of `sb` and the
cursor. -/
inductive Step where
  | next (braceCount : Int) (sb : GoString) (pi : Input)
  | brk (braceCount : Int) (sb : GoString) (pi : Input)
  | ret (r : Res Expression)
  deriving DecidableEq, Repr

/-- Tries one of the parsers of the loop body: an error or a cut-off loop returns from
`Parse`, a match is handed to `onMatch`, and otherwise `onNoMatch` goes on with the
rest of the body. -/
def tryParser (p : Parser GoString) (pi : Input)
    (onMatch : GoString → Input → Step) (onNoMatch : Input → Step) : Step :=
  match p pi with
  | .error e pi1 => .ret (.error e pi1)
  | .outOfFuel => .ret .outOfFuel
  | .ok result pi1 => onMatch result pi1
  | .noMatch pi1 => onNoMatch pi1

/-- The body of the `for` loop of `jsExpressionParser.Parse`. -/
def jsExpressionParser.step (braceCount : Int) (sb : GoString) (pi : Input) : Step :=
  -- Try to parse a single line comment.
  tryParser jsSingleLineComment pi (fun result pi => .next braceCount (sb ++ result) pi)
  fun pi =>
  -- Try to parse a multi-line comment.
  tryParser jsOrGoMultiLineComment pi (fun result pi => .next braceCount (sb ++ result) pi)
  fun pi =>
  -- Try to read a string literal.
  tryParser string_lit pi (fun result pi => .next braceCount (sb ++ result) pi)
  fun pi =>
  -- Also try for a rune literal.
  tryParser rune_lit pi (fun result pi => .next braceCount (sb ++ result) pi)
  fun pi =>
  -- Try opener.
  tryParser openBrace pi (fun result pi => .next (braceCount + 1) (sb ++ result) pi)
  fun pi =>
  -- Try closer.
  let startOfCloseBrace := pi.Index
  tryParser closeBraceWithOptionalPadding pi
    (fun result pi =>
      let braceCount := braceCount - 1
      if braceCount < 0 then
        .ret (.error ⟨"expression: too many closing braces", pi.Index⟩ pi)
      else if braceCount = 0 then .brk braceCount sb (pi.Seek startOfCloseBrace)
      else .next braceCount (sb ++ result) pi)
  fun pi =>
  -- Read anything else.
  match pi.Take 1 with
  | none => .brk braceCount sb pi
  | some (c, pi) =>
    if (c.headD 0).toNat = 65533 then .brk braceCount sb pi
    else .next braceCount (sb ++ c) pi

/-- The `for` loop of `jsExpressionParser.Parse`, cut off after `fuel` passes. -/
def jsExpressionParser.loop : Nat → Int → GoString → Input → Step
  | 0, _, _, _ => .ret .outOfFuel
  | fuel + 1, braceCount, sb, pi =>
    match jsExpressionParser.step braceCount sb pi with
    | .next braceCount sb pi => jsExpressionParser.loop fuel braceCount sb pi
    | r => r

/-- What `jsExpressionParser.Parse` does once its loop is left. -/
def jsExpressionParser.finish (from1 : Nat) : Step → Res Expression
  | .ret r => r
  | .next _ _ _ => .outOfFuel
  | .brk braceCount sb pi =>
    if braceCount ≠ 0 then .error ⟨"expression: unexpected brace count", pi.Index⟩ pi
    else .ok ⟨sb, from1, pi.Index⟩ pi

/-- Method `jsExpressionParser.Parse`, for a parser with the given `startBraceCount`.
The loop is given one pass per remaining byte, and one more. -/
def jsExpressionParser.Parse (startBraceCount : Int) (pi : Input) : Res Expression :=
  jsExpressionParser.finish pi.Index
    (jsExpressionParser.loop (pi.s.length - pi.charIndex + 1) startBraceCount [] pi)

/-- Parser `jsExp`: the scanner with `startBraceCount: 1`. -/
def jsExp : Parser Expression := jsExpressionParser.Parse 1

/-- A fresh cursor `parse.NewInput(s)`. -/
def NewInput (s : GoString) : Input := ⟨s, 0⟩

/-! ## Vocabulary for the statements about the scanner -/

/-- The cursor lies within its text. -/
def Input.wf (pi : Input) : Prop := pi.charIndex ≤ pi.s.length

/-- The unread part of the text. -/
def Input.rest (pi : Input) : GoString := pi.s.drop pi.charIndex

/-- The next `n` unread bytes. -/
def Input.span (pi : Input) (n : Nat) : GoString := pi.rest.take n

/-- The cursor moved `n` bytes on. -/
def Input.advance (pi : Input) (n : Nat) : Input := { pi with charIndex := pi.charIndex + n }

/-- A parser that keeps the text, moves the cursor forward only, by at least `k` bytes
when it matches, and neither reports an error nor is cut off. -/
def Sane {α : Type} (k : Nat) (p : Parser α) : Prop :=
  ∀ pi : Input, pi.wf →
    (∃ v n, k ≤ n ∧ pi.charIndex + n ≤ pi.s.length ∧ p pi = .ok v (pi.advance n)) ∨
    (∃ n, pi.charIndex + n ≤ pi.s.length ∧ p pi = .noMatch (pi.advance n))

/-- A sane parser that returns exactly the bytes it consumed and leaves the cursor in
place when it does not match. -/
def Clean (k : Nat) (p : Parser GoString) : Prop :=
  ∀ pi : Input, pi.wf →
    (∃ n, k ≤ n ∧ pi.charIndex + n ≤ pi.s.length ∧ p pi = .ok (pi.span n) (pi.advance n)) ∨
    p pi = .noMatch pi

/-- The unread text begins with a closing brace, possibly after one blank. -/
def Input.atCloser (pi : Input) : Prop :=
  HasPrefix pi.rest (lit " \x7d") = true ∨ HasPrefix pi.rest (lit "\x7d") = true

/-! ## Concrete parses

The trees that `go/parser` returns on a few scaffolded sources, written down with the
positions it reports: the scaffold is 38 bytes long, so the first byte of the content
has position 39. -/

/-- A front end that answers `(file, err)` on the source `src`, and a nil tree with a
parse error on any other source: it records what `go/parser` returns on one concrete
source text. -/
def frontEndOn (src : GoString) (file : File) (err : Option GoError) : GoFrontEnd :=
  fun s => if s = src then (some file, err) else (none, some (.parseErr "other source"))

/-- An if header with an empty body, followed by the brace that closes the container
function. -/
def ifContent : GoString := lit "if x := val(); x > 3 \x7b\n\x7d\n\x7d"

/-- The parse of `scaffold ++ ifContent`: the container function holds one if
statement, whose body opens at content offset 21 and closes at content offset 23. -/
def ifFile : File :=
  ⟨[.FuncDecl (lit "templ_container") (some [.IfStmt 39 60 63])]⟩

/-- An if statement, the end of the container function, and one more function. -/
def twoFuncContent : GoString := lit "if x \x7b\n\x7d\n\x7d\nfunc f() \x7b\x7d"

/-- The parse of `scaffold ++ twoFuncContent`: it has no syntax error, and two function
declarations. The body of the if statement opens at content offset 5. -/
def twoFuncFile : File :=
  ⟨[.FuncDecl (lit "templ_container") (some [.IfStmt 39 44 47]),
    .FuncDecl (lit "f") (some [])]⟩

/-- A bare expression after one blank. -/
def blankContent : GoString := lit " x \x7d"

/-- The parse of `scaffold ++ blankContent`: the expression statement `x` is the byte
at content offset 1. -/
def blankFile : File :=
  ⟨[.FuncDecl (lit "templ_container") (some [.ExprStmt 40 41])]⟩

/-- A case clause, the closing brace of a switch and of the container function. -/
def caseContent : GoString := lit "case x > 3, x < 4:\n\x7d"

/-- The parse of `scaffold ++ "switch {\n" ++ caseContent ++ "\n}"`: a switch statement
with one clause, which starts at content offset 0 and has its colon at content
offset 17. -/
def caseFile : File :=
  ⟨[.FuncDecl (lit "templ_container")
    (some [.SwitchStmt 39 46 [.CaseClause 48 65 66] 68])]⟩

/-- A content that begins with the letters of `default` and is one identifier. -/
def identContent : GoString := lit "defaultValue"

/-- The parse of `scaffold ++ "switch {\n" ++ identContent ++ "\n}"`: the identifier is
no clause, so the switch statement has an empty body, and a syntax error is
reported. -/
def identFile : File :=
  ⟨[.FuncDecl (lit "templ_container") (some [.SwitchStmt 39 46 [] 49])]⟩

/-- A case clause, the end of the switch and of the container function, and one more
function. -/
def caseFuncContent : GoString := lit "case 1:\n\x7d\n\x7d\nfunc f() \x7b\x7d"

/-- The parse of `scaffold ++ "switch {\n" ++ caseFuncContent ++ "\n}"`: two function
declarations, and a bad declaration for the closing brace left over. -/
def caseFuncFile : File :=
  ⟨[.FuncDecl (lit "templ_container")
      (some [.SwitchStmt 39 46 [.CaseClause 48 54 55] 57]),
    .FuncDecl (lit "f") (some []), .OtherDecl]⟩

/-- An else directly followed by a brace. -/
def elseContent : GoString := lit "else\x7b"

/-- The parse of `scaffold ++ elseContent`: `else` starts no statement, so the body
holds a `BadStmt`, and a syntax error is reported. -/
def elseFile : File :=
  ⟨[.FuncDecl (lit "templ_container") (some [.OtherStmt 39 44])]⟩

/-- The if header that follows `else` and its padding in `else   if   true {`, with an
empty body and the brace that closes the container function. -/
def elseIfRest : GoString := lit "   true \x7b\n\x7d\n\x7d"

/-- The parse of `scaffold ++ "if" ++ elseIfRest`: the body of the if statement opens
at offset 10 of that text. -/
def elseIfFile : File :=
  ⟨[.FuncDecl (lit "templ_container") (some [.IfStmt 39 49 52])]⟩

/-- A spread expression and the brace that closes it. -/
def childrenContent : GoString := lit "children... \x7d"

/-- The parse of `scaffold ++ childrenContent`: the expression statement `children`,
eight bytes long; the dots that follow are a syntax error. -/
def childrenFile : File :=
  ⟨[.FuncDecl (lit "templ_container") (some [.ExprStmt 39 47])]⟩

/-! ## The node types the rules require -/

/-- The table of the specification: whether a statement is of the node type that a
rule requires of the first statement. That is an if statement for the If rule, a for
or range statement for the For rule, a switch or type switch statement for the Switch
rule, a switch statement for the Case rule, an expression statement for the Expr
rule. The methods `Code` are compared with it. -/
def Extractor.accepts : Extractor → Stmt → Bool
  | .IfExtractor, .IfStmt _ _ _ => true
  | .ForExtractor, .ForStmt _ _ _ => true
  | .ForExtractor, .RangeStmt _ _ _ => true
  | .SwitchExtractor, .SwitchStmt _ _ _ _ => true
  | .SwitchExtractor, .TypeSwitchStmt _ _ _ => true
  | .CaseExtractor, .SwitchStmt _ _ _ _ => true
  | .ExprExtractor, .ExprStmt _ _ => true
  | _, _ => false

/-! ## parse.go: ParseFunc -/

/-- A function declaration `*ast.FuncDecl` as `ParseFunc` reads it: its position
`Pos()`, which is the position of the keyword `func`, and the position `Body.Lbrace`
of its body's opening brace, `none` for a declaration without a body (a nil `Body`). -/
structure FuncNode where
  Pos : Nat
  BodyLbrace : Option Nat
  deriving DecidableEq, Repr

/-- The front end as `ParseFunc` uses it: a nil tree, or the function declarations of
the parsed file in source order (the nodes on which the callback of `ast.Inspect` does
not return `true`), together with a possibly nil error. -/
abbrev GoFuncFrontEnd := GoString → Option (List FuncNode) × Option GoError

/-- The traversal `ast.Inspect(node, f)` of `ParseFunc`, threading the captured
variables `(expr, err)`: on every function declaration the callback assigns
`src[fn.Pos():fn.Body.Lbrace-1], nil` and returns `false`, and the walk goes on with
the following declarations. -/
def ParseFunc.inspect (src : GoString) : List FuncNode → GoString × Option GoError → Outcome
  | [], st => some st
  | fn :: rest, _ =>
    match fn.BodyLbrace with
    | none => none
    | some lbrace =>
      match slice src (fn.Pos : Int) ((lbrace : Int) - 1) with
      | none => none
      | some expr => ParseFunc.inspect src rest (expr, none)

/-- Function `ParseFunc`. -/
def ParseFunc (ParseFile : GoFuncFrontEnd) (content : GoString) : Outcome :=
  let src := lit "package main\n" ++ content
  match ParseFile src with
  | (none, parseErr) => some ([], parseErr)
  | (some node, _) => ParseFunc.inspect src node ([], none)

/-! ## goparser.go and switchexpressionparser.go

The functions of these two files call the front end, and with it they can panic: their
outcome is `none` for a panic, and a parser result otherwise. The parser of child
nodes `newTemplateNodeParser` and the constant `unterminatedMissingEnd` are declared
outside the sources at hand and are parameters. -/

/-- Method `Error()` of the error values. -/
def GoError.Error : GoError → String
  | .ErrContainerFuncNotFound => "parser error: templ container function not found"
  | .ErrExpectedNodeNotFound => "parser error: expected node not found"
  | .parseErr msg => msg

/-- Method call `Input.Peek(-1)`: the whole unread text. -/
def Input.PeekRest (pi : Input) : GoString := pi.s.drop pi.charIndex

/-- A parser that may panic. -/
abbrev PParser (α : Type) := Input → Option (Res α)

/-- Function `parseGoExpression`: the `Expression` that `ParseExpression` finds at the
start of the unread text; the cursor is moved on by the length of its text. -/
def parseGoExpression (ParseFile : GoFrontEnd) (name : String) : PParser Expression :=
  fun pi =>
    let from1 := pi.Index
    let src := pi.PeekRest
    match ParseExpression ParseFile src with
    | none => none
    | some (_, some err) =>
      some (.error ⟨name ++ ": invalid go expression: " ++ err.Error, pi.Index⟩ pi)
    | some (expr, none) =>
      let pi1 := match pi.Take expr.length with
        | some (_, pi1) => pi1
        | none => pi
      some (.ok ⟨expr, from1, pi1.Index⟩ pi1)

/-- The bytes `b` for which `unicode.IsSpace(rune(b))` holds: tab, line feed, vertical
tab, form feed, carriage return, blank, and the code points `0x85` and `0xA0`. -/
def isWhiteSpace (b : UInt8) : Bool :=
  b = 9 || b = 10 || b = 11 || b = 12 || b = 13 || b = 32 || b = 133 || b = 160

/-- Parser `parse.OptionalWhitespace` of the imported package: takes the whitespace at
the cursor, if any, and always matches. -/
def parse.OptionalWhitespace : Parser GoString := fun pi =>
  let ws := (pi.s.drop pi.charIndex).takeWhile isWhiteSpace
  .ok ws { pi with charIndex := pi.charIndex + ws.length }

/-- Modelled from the spec: the node types `CaseExpression`, `SwitchExpression` and
`Nodes` are declared outside the sources at hand. By the spec a case clause has a
header Expression, an ordered sequence of child nodes and an ordered sequence of
diagnostics, both opaque here (the types `N` and `D`). -/
structure CaseExpression (N D : Type) where
  Expression : Templ.Expression
  Children : List N
  Diagnostics : List D
  deriving DecidableEq, Repr

/-- Modelled from the spec: a switch node has a subject Expression and an ordered
sequence of case clauses. -/
structure SwitchExpression (N D : Type) where
  Expression : Templ.Expression
  Cases : List (CaseExpression N D)
  deriving DecidableEq, Repr

/-- Modelled from the spec: what the parser of child nodes returns, the nodes and the
diagnostics gathered with them. -/
structure Nodes (N D : Type) where
  Nodes : List N
  Diagnostics : List D
  deriving DecidableEq, Repr

/-- What the switch parser takes from outside the sources at hand: the front end, the
parser of child nodes `newTemplateNodeParser(until, untilName)`, which reads child
nodes until the parser `until` matches, and the text `unterminatedMissingEnd`. -/
structure SwitchDeps (N D : Type) where
  ParseFile : GoFrontEnd
  newTemplateNodeParser : PParser Unit → String → PParser (Nodes N D)
  unterminatedMissingEnd : String

/-- A parser result without its value. -/
def Res.strip {α : Type} : Res α → Res Unit
  | .ok _ pi => .ok () pi
  | .noMatch pi => .noMatch pi
  | .error e pi => .error e pi
  | .outOfFuel => .outOfFuel

/-- Function `StripType`: the same parser, the value thrown away. -/
def StripType {α : Type} (p : PParser α) : PParser Unit := fun pi => (p pi).map Res.strip

/-- Combinator `parse.Any` over parsers that may panic. -/
def parse.AnyOf {α : Type} : List (PParser α) → PParser α
  | [], pi => some (.noMatch pi)
  | p :: ps, pi =>
    match p pi with
    | none => none
    | some (.noMatch pi1) => parse.AnyOf ps pi1
    | some r => some r

/-- Parser `caseExpressionStartParser`. -/
def caseExpressionStartParser (ParseFile : GoFrontEnd) : PParser Expression := fun pi =>
  let start := pi.Index
  -- Optional whitespace.
  match parse.OptionalWhitespace pi with
  | .error e pi1 => some (.error e pi1)
  | .outOfFuel => some .outOfFuel
  | .ok _ pi1 | .noMatch pi1 =>
    -- Look for a case or default statement.
    let s := (pi1.Peek 9).getD []
    if !(HasPrefix s (lit "case") || HasPrefix s (lit "default")) then
      some (.noMatch (pi1.Seek start))
    else
      match parseGoExpression ParseFile "case expression" pi1 with
      | none => none
      | some (.ok e pi2) =>
        -- Eat terminating newline.
        match parse.String (lit "\n") pi2 with
        | .ok _ pi3 => some (.ok e pi3)
        | .noMatch pi3 => some (.ok e pi3)
        | .error _ pi3 => some (.ok e pi3)
        | .outOfFuel => some .outOfFuel
      | some (.noMatch pi2) => some (.noMatch pi2)
      | some (.error err pi2) => some (.error err pi2)
      | some .outOfFuel => some .outOfFuel

/-- Parser `caseExpressionParser`. -/
def caseExpressionParser {N D : Type} (deps : SwitchDeps N D) :
    PParser (CaseExpression N D) := fun pi =>
  match caseExpressionStartParser deps.ParseFile pi with
  | none => none
  | some (.noMatch pi1) => some (.noMatch pi1)
  | some (.error e pi1) => some (.error e pi1)
  | some .outOfFuel => some .outOfFuel
  | some (.ok e pi1) =>
    -- Read until the next case statement, default, or end of the block.
    let pr := deps.newTemplateNodeParser
      (parse.AnyOf [StripType (fun pi => some (closeBraceWithOptionalPadding pi)),
        StripType (caseExpressionStartParser deps.ParseFile)])
      "closing brace or case expression"
    match pr pi1 with
    | none => none
    | some .outOfFuel => some .outOfFuel
    | some (.noMatch pi2) =>
      some (.error ⟨"case: expected nodes, but none were found", pi2.Index⟩ pi2)
    | some (.error _ pi2) =>
      some (.error ⟨"case: expected nodes, but none were found", pi2.Index⟩ pi2)
    | some (.ok nodes pi2) =>
      -- Optional whitespace.
      match parse.OptionalWhitespace pi2 with
      | .ok _ pi3 => some (.ok ⟨e, nodes.Nodes, nodes.Diagnostics⟩ pi3)
      | .noMatch pi3 => some (.noMatch pi3)
      | .error err pi3 => some (.error err pi3)
      | .outOfFuel => some .outOfFuel

/-- The loop of `switchExpressionParser.Parse` that reads the case clauses, cut off
after `fuel` passes. -/
def switchExpressionParser.cases {N D : Type} (deps : SwitchDeps N D) :
    Nat → List (CaseExpression N D) → PParser (List (CaseExpression N D))
  | 0, _, _ => some .outOfFuel
  | fuel + 1, acc, pi =>
    match caseExpressionParser deps pi with
    | none => none
    | some (.error e pi1) => some (.error e pi1)
    | some .outOfFuel => some .outOfFuel
    | some (.noMatch pi1) => some (.ok acc pi1)
    | some (.ok ce pi1) => switchExpressionParser.cases deps fuel (acc ++ [ce]) pi1

/-- Method `switchExpressionParser.Parse`. A result `noMatch` stands for the nil node
with `ok = false` and a nil error. The loop over the clauses is cut off after `fuel`
passes. -/
def switchExpressionParser.Parse {N D : Type} (deps : SwitchDeps N D) (fuel : Nat) :
    PParser (SwitchExpression N D) := fun pi =>
  -- Check the prefix first.
  match parse.String (lit "switch ") pi with
  | .noMatch pi1 => some (.noMatch pi1)
  | .error e pi1 => some (.error e pi1)
  | .outOfFuel => some .outOfFuel
  | .ok _ pi1 =>
    -- Once we have a prefix, we must have a Go expression.
    match parseGoExpression deps.ParseFile "switch" pi1 with
    | none => none
    | some (.noMatch pi2) => some (.noMatch pi2)
    | some (.error e pi2) => some (.error e pi2)
    | some .outOfFuel => some .outOfFuel
    | some (.ok subject pi2) =>
      -- Read the optional 'case' nodes.
      match switchExpressionParser.cases deps fuel [] pi2 with
      | none => none
      | some (.noMatch pi3) => some (.noMatch pi3)
      | some (.error e pi3) => some (.error e pi3)
      | some .outOfFuel => some .outOfFuel
      | some (.ok cases pi3) =>
        -- Read the required closing brace.
        match closeBraceWithOptionalPadding pi3 with
        | .ok _ pi4 => some (.ok ⟨subject, cases⟩ pi4)
        | .noMatch pi4 =>
          some (.error ⟨"switch: " ++ deps.unterminatedMissingEnd, pi4.Index⟩ pi4)
        | .error _ pi4 =>
          some (.error ⟨"switch: " ++ deps.unterminatedMissingEnd, pi4.Index⟩ pi4)
        | .outOfFuel => some .outOfFuel

/-! ## The passes of the scanner -/

/-- The depth and the cursor at the start of each pass through the loop of
`jsExpressionParser.Parse`, in order, for at most `fuel` passes. -/
def jsExpressionParser.passes : Nat → Int → GoString → Input → List (Int × Input)
  | 0, _, _, _ => []
  | fuel + 1, braceCount, sb, pi =>
    (braceCount, pi) ::
      match jsExpressionParser.step braceCount sb pi with
      | .next braceCount1 sb1 pi1 => jsExpressionParser.passes fuel braceCount1 sb1 pi1
      | _ => []

/-! ## More concrete parses -/

/-- Nothing but the brace that closes the container function. -/
def emptyContent : GoString := lit "\x7d"

/-- A comment, and the brace that closes the container function. -/
def commentContent : GoString := lit "// c\n\x7d"

/-- The parse of `scaffold ++ emptyContent` and of `scaffold ++ commentContent`: no
syntax error, and a container function whose body has no statements. -/
def emptyFile : File := ⟨[.FuncDecl (lit "templ_container") (some [])]⟩

/-- A switch statement without clauses, and the brace that closes the container
function. -/
def noClauseContent : GoString := lit "switch \x7b\n\x7d\n\x7d"

/-- The parse of `scaffold ++ noClauseContent`: the body of the switch statement opens
at content offset 7 and closes at content offset 9. -/
def noClauseFile : File :=
  ⟨[.FuncDecl (lit "templ_container") (some [.SwitchStmt 39 46 [] 49])]⟩

/-- A switch statement with one clause, and the brace that closes the container
function. -/
def switchCaseContent : GoString := lit "switch \x7b\ncase 1:\n\x7d\n\x7d"

/-- The parse of `scaffold ++ switchCaseContent`: the clause starts at content offset 9
and has its colon at content offset 15. -/
def switchCaseFile : File :=
  ⟨[.FuncDecl (lit "templ_container")
    (some [.SwitchStmt 39 46 [.CaseClause 48 54 55] 57])]⟩

/-- A bare expression, a blank, and the brace that closes it. -/
def exprContent : GoString := lit "x \x7d"

/-- The parse of `scaffold ++ exprContent`: the expression statement `x` is the first
byte of the content. -/
def exprFile : File :=
  ⟨[.FuncDecl (lit "templ_container") (some [.ExprStmt 39 40])]⟩

/-- A front end for `ParseFunc` that answers `(nodes, err)` on the source `src`, and a
nil tree with a parse error on any other source. -/
def funcFrontEndOn (src : GoString) (nodes : List FuncNode) (err : Option GoError) :
    GoFuncFrontEnd :=
  fun s => if s = src then (some nodes, err) else (none, some (.parseErr "other source"))

/-- One function declaration with an empty body. -/
def funcContent : GoString := lit "func f() \x7b\x7d"

/-- The parse of `"package main\n" ++ funcContent`: the prefix is 13 bytes long, so the
keyword `func` at content offset 0 has position 14, and the opening brace at content
offset 9 has position 23. -/
def funcNodes : List FuncNode := [⟨14, some 23⟩]

/-- Two function declarations, on two lines. -/
def twoHeaderContent : GoString := lit "func f() \x7b\x7d\nfunc g() \x7b\x7d"

/-- The parse of `"package main\n" ++ twoHeaderContent`: the second declaration starts
at content offset 12 and has its opening brace at content offset 21. -/
def twoHeaderNodes : List FuncNode := [⟨14, some 23⟩, ⟨26, some 35⟩]

/-- The switch of the end-to-end example of the specification. -/
def switchSample : GoString :=
  lit "switch x \x7b\ncase 1:\n<div>\ncase 2:\n<div>\ndefault:\n<div>\n</div>\x7d"

/-- A switch parser whose front end knows the parse of `scaffold ++ exprContent`, and
whose parser of child nodes matches without reading anything. -/
def exprDeps : SwitchDeps Unit Unit :=
  ⟨frontEndOn (scaffold ++ exprContent) exprFile none,
   fun _ _ pi => some (.ok ⟨[], []⟩ pi),
   "missing end"⟩

/-! ## Concrete parses: names that begin with a keyword -/

/-- A call of a function whose name begins with the letters `for`, a blank, and the
brace that closes the expression. -/
def formatContent : GoString := lit "format(x) \x7d"

/-- The parse of `scaffold ++ formatContent`: the call `format(x)`, nine bytes long, is
an expression statement at the first byte of the content. -/
def formatFile : File :=
  ⟨[.FuncDecl (lit "templ_container") (some [.ExprStmt 39 48])]⟩

/-- A call of a function whose name begins with the letters `if`. -/
def iframeContent : GoString := lit "iframe() \x7d"

/-- The parse of `scaffold ++ iframeContent`: the call `iframe()` is eight bytes long. -/
def iframeFile : File :=
  ⟨[.FuncDecl (lit "templ_container") (some [.ExprStmt 39 47])]⟩

/-- A method call on a variable whose name begins with the letters `switch`. -/
def switcherContent : GoString := lit "switcher.Render() \x7d"

/-- The parse of `scaffold ++ switcherContent`: the call `switcher.Render()` is
seventeen bytes long. -/
def switcherFile : File :=
  ⟨[.FuncDecl (lit "templ_container") (some [.ExprStmt 39 56])]⟩

/-- The call `iframe()`, the end of the container function, and one more function. -/
def iframeFuncContent : GoString := lit "iframe()\n\x7d\nfunc f() \x7b\x7d"

/-- The parse of `scaffold ++ iframeFuncContent`: it has no syntax error, and two
function declarations. -/
def iframeFuncFile : File :=
  ⟨[.FuncDecl (lit "templ_container") (some [.ExprStmt 39 47]),
    .FuncDecl (lit "f") (some [])]⟩

/-! ## Boundary extraction: lemmas and claims C1 to C6 -/

theorem lit_else : lit "else" = [101, 108, 115, 101] := by decide

theorem HasPrefix_iff (s p : GoString) : HasPrefix s p = true ↔ p <+: s := by
  induction p generalizing s with
  | nil => simp [HasPrefix]
  | cons b p ih =>
    cases s with
    | nil => simp [HasPrefix]
    | cons a s =>
      simp only [HasPrefix, Bool.and_eq_true, beq_iff_eq, ih, List.cons_prefix_cons]
      constructor <;> rintro ⟨rfl, h⟩ <;> exact ⟨rfl, h⟩

theorem HasPrefix_append (p r : GoString) : HasPrefix (p ++ r) p = true :=
  (HasPrefix_iff _ _).2 (List.prefix_append p r)

theorem slice_nat (s : GoString) (lo hi : Nat) (h1 : lo ≤ hi) (h2 : hi ≤ s.length) :
    slice s (lo : Int) (hi : Int) = some ((s.drop lo).take (hi - lo)) := by
  unfold slice
  rw [if_pos (by omega)]
  simp

theorem inspect_others (src : GoString) (ex : Extractor) (others : List Decl)
    (h : ∀ d ∈ others, d = Decl.OtherDecl) (st : GoString × Option GoError) :
    parseExp.inspect src ex others st = some st := by
  induction others with
  | nil => simp [parseExp.inspect]
  | cons d ds ih =>
    have hd : d = Decl.OtherDecl := h d (by simp)
    subst hd
    simp only [parseExp.inspect]
    exact ih (fun d hd => h d (by simp [hd]))

theorem getCode_scaffold (content : GoString) (stmt : Stmt) (n : Nat)
    (hpos : stmt.Pos = scaffold.length + 1) (he : scaffold.length + n < stmt.End)
    (hn : n ≤ content.length) :
    ∃ m, n ≤ m ∧ getCode (scaffold ++ content) stmt = some (content.take m) := by
  unfold getCode
  rw [if_neg (by rintro (h | h) <;> omega), hpos]
  by_cases hlt : ((stmt.End : Int) - 1) > (((scaffold ++ content).length : Nat) : Int)
  · refine ⟨content.length, hn, ?_⟩
    simp only [hlt, if_true]
    have := slice_nat (scaffold ++ content) scaffold.length (scaffold ++ content).length
      (by simp) (le_refl _)
    simpa using this
  · refine ⟨stmt.End - 1 - scaffold.length, by omega, ?_⟩
    simp only [hlt, if_false]
    have hlen : (scaffold ++ content).length = scaffold.length + content.length := by simp
    have := slice_nat (scaffold ++ content) scaffold.length (stmt.End - 1)
      (by omega) (by omega)
    have e1 : ((stmt.End - 1 : Nat) : Int) = (stmt.End : Int) - 1 := by omega
    rw [e1] at this
    simpa using this

theorem headerCode_scaffold (content : GoString) (stmt : Stmt) (k : Nat)
    (hpos : stmt.Pos = scaffold.length + 1) (he : scaffold.length + k + 1 < stmt.End)
    (hk : k < content.length) :
    headerCode (scaffold ++ content) stmt (scaffold.length + 1) (scaffold.length + k + 1)
      = some (content.take (k + 1), none) := by
  obtain ⟨m, hm, hcode⟩ := getCode_scaffold content stmt (k + 1) hpos (by omega) (by omega)
  unfold headerCode
  rw [hcode]
  have e1 : (((scaffold.length + k + 1 : Nat) : Int) - ((scaffold.length + 1 : Nat) : Int) + 1)
      = ((k + 1 : Nat) : Int) := by push_cast; ring
  have := slice_nat (content.take m) 0 (k + 1) (by omega) (by simp; omega)
  simp only [e1]
  rw [show ((0 : Nat) : Int) = 0 from rfl] at this
  rw [this]
  simp [List.take_take]
  omega

theorem dispatch_header (stmt : Stmt) (kw : GoString) (l : Nat) (content : GoString)
    (hstmt : stmt.header = some (kw, l)) (hkw : HasPrefix content kw = true) :
    elseRegex.FindString content = [] ∧ elseIfRegex.FindStringSubmatch content = [] ∧
    (HasPrefix content (lit "case") || HasPrefix content (lit "default")) = false ∧
    ∃ ex, prefixDispatch content prefixTable = some ex ∧
      ∀ src more, ex.Code src (stmt :: more) = headerCode src stmt stmt.Pos l := by
  obtain ⟨rest, rfl⟩ := (HasPrefix_iff _ _).1 hkw
  cases stmt <;> simp [Stmt.header] at hstmt <;> obtain ⟨rfl, rfl⟩ := hstmt <;>
    first
    | exact ⟨rfl, rfl, rfl, Extractor.IfExtractor, rfl, fun _ _ => rfl⟩
    | exact ⟨rfl, rfl, rfl, Extractor.ForExtractor, rfl, fun _ _ => rfl⟩
    | exact ⟨rfl, rfl, rfl, Extractor.SwitchExtractor, rfl, fun _ _ => rfl⟩

/-- The header round trip on a source without a later function declaration. Let the
parse of `scaffold ++ content` have `templ_container`
as its only function declaration, with a first statement that is an if statement
(resp. a for or range statement, a switch or type switch statement) which starts, with
its keyword, at the first byte of `content`, has its body's opening brace at content
offset `k` and ends past that brace. Then `ParseExpression content` returns
`content[0..k]`, the brace included, and a nil error. -/
theorem ParseExpression_header_roundtrip (ParseFile : GoFrontEnd) (content : GoString)
    (file : File) (perr : Option GoError) (stmt : Stmt) (more : List Stmt)
    (others : List Decl) (kw : GoString) (k : Nat)
    (hstmt : stmt.header = some (kw, scaffold.length + k + 1))
    (hkw : HasPrefix content kw = true)
    (hpos : stmt.Pos = scaffold.length + 1)
    (hk : k < content.length)
    (hend : scaffold.length + k + 1 < stmt.End)
    (hparse : ParseFile (scaffold ++ content) = (some file, perr))
    (hdecls : file.Decls = Decl.FuncDecl (lit "templ_container") (some (stmt :: more)) :: others)
    (hothers : ∀ d ∈ others, d = Decl.OtherDecl) :
    ParseExpression ParseFile content = some (content.take (k + 1), none) := by
  obtain ⟨h1, h2, h3, ex, h4, h5⟩ := dispatch_header stmt kw _ content hstmt hkw
  have hcode := headerCode_scaffold content stmt k hpos hend hk
  simp only [Bool.or_eq_false_iff] at h3
  simp [ParseExpression, h1, h2, h3.1, h3.2, h4, parseExp, hparse, hdecls, parseExp.inspect,
    h5, hpos, hcode, inspect_others _ _ _ hothers]

/-- The round trip on the header `if x := val(); x > 3 {` of the test `TestIf`. -/
theorem ParseExpression_header_roundtrip_witness :
    ParseExpression (frontEndOn (scaffold ++ ifContent) ifFile none) ifContent
      = some (ifContent.take (21 + 1), none) ∧
    ifContent.take (21 + 1) = lit "if x := val(); x > 3 \x7b" :=
  ⟨ParseExpression_header_roundtrip (frontEndOn (scaffold ++ ifContent) ifFile none)
    ifContent ifFile none (.IfStmt 39 60 63) [] [] (lit "if") 21 rfl (by decide) rfl
    (by decide) (by decide) (if_pos rfl) rfl (by simp), by decide⟩

/-- Claim C1 fails on the content `if x {`, newline, `}`, newline, `}`, newline,
`func f() {}`. It parses without error, and the first statement of `templ_container`
is an if statement at the first byte of the content with its brace at content offset
5. The header `if x {` is extracted, and yet `ParseExpression` returns it together
with the error `ErrContainerFuncNotFound`, not with a nil error: the callback of
`ast.Inspect` also runs on the declaration of `f`, after the container was found, and
overwrites `err`. -/
theorem ParseExpression_header_second_func :
    frontEndOn (scaffold ++ twoFuncContent) twoFuncFile none (scaffold ++ twoFuncContent)
      = (some twoFuncFile, none) ∧
    twoFuncFile.Decls = [.FuncDecl (lit "templ_container")
      (some [.IfStmt (scaffold.length + 1) (scaffold.length + 5 + 1) 47]),
      .FuncDecl (lit "f") (some [])] ∧
    twoFuncContent.take (5 + 1) = lit "if x \x7b" ∧
    ParseExpression (frontEndOn (scaffold ++ twoFuncContent) twoFuncFile none) twoFuncContent
      = some (lit "if x \x7b", some .ErrContainerFuncNotFound) :=
  ⟨if_pos rfl, rfl, by decide, by decide⟩

/-- Claim C2 fails on the content ` x }` (a blank before the expression): the
expression statement starts at content offset 1, `ParseExpression` returns its text
`x` with a nil error, and `x` is no leading part of the content. -/
theorem ParseExpression_leading_blank :
    ParseExpression (frontEndOn (scaffold ++ blankContent) blankFile none) blankContent
      = some (lit "x", none) ∧
    ¬ (lit "x" <+: blankContent) := by
  constructor
  · decide
  · decide

theorem takeWhile_append_stop (ws tail : GoString) (hws : ∀ b ∈ ws, isSpace b = true)
    (htail : ∀ b ∈ tail.head?, isSpace b = false) :
    (ws ++ tail).takeWhile isSpace = ws := by
  induction ws with
  | nil =>
    cases tail with
    | nil => rfl
    | cons c t =>
      have := htail c (by simp)
      simp [List.takeWhile, this]
  | cons a ws ih =>
    have ha := hws a (by simp)
    simp only [List.cons_append, List.takeWhile_cons, ha, if_true]
    rw [ih (fun b hb => hws b (by simp [hb]))]

theorem else_scan (ws tail : GoString) (hws : ∀ b ∈ ws, isSpace b = true)
    (htail : ∀ b ∈ tail.head?, isSpace b = false) :
    HasPrefix (lit "else" ++ ws ++ tail) (lit "else") = true ∧
    ((lit "else" ++ ws ++ tail).drop 4).takeWhile isSpace = ws ∧
    (lit "else" ++ ws ++ tail).drop (4 + ws.length) = tail := by
  refine ⟨?_, ?_, ?_⟩
  · rw [List.append_assoc]; exact HasPrefix_append _ _
  · have : (lit "else" ++ ws ++ tail).drop 4 = ws ++ tail := by
      rw [List.append_assoc]; rfl
    rw [this, takeWhile_append_stop ws tail hws htail]
  · have : (lit "else" ++ ws ++ tail).drop 4 = ws ++ tail := by
      rw [List.append_assoc]; rfl
    rw [← List.drop_drop, this]
    simp

/-- Claim C4, as amended. For every content that is `else`, then one or more
whitespace characters `ws` (blank, tab, line feed, form feed or carriage return), then
`{`, then any text, `ParseExpression` returns the leading `else`, `ws`, `{` verbatim
with a nil error, whatever the front end does. -/
theorem ParseExpression_else (ParseFile : GoFrontEnd) (ws rest : GoString)
    (hne : ws ≠ []) (hws : ∀ b ∈ ws, isSpace b = true) :
    ParseExpression ParseFile (lit "else" ++ ws ++ (lit "\x7b" ++ rest))
      = some (lit "else" ++ ws ++ lit "\x7b", none) := by
  obtain ⟨h1, h2, h3⟩ := else_scan ws (lit "\x7b" ++ rest) hws (by intro b hb; cases hb; rfl)
  have hm : elseRegex.FindString (lit "else" ++ ws ++ (lit "\x7b" ++ rest))
      = lit "else" ++ ws ++ lit "\x7b" := by
    simp only [elseRegex.FindString, h1, h2, h3, if_true]
    rw [if_pos ⟨hne, HasPrefix_append _ _⟩]
  unfold ParseExpression
  simp only [hm]
  rw [if_pos]
  intro h
  have := congrArg List.length h
  simp [lit_else] at this

/-- Witness for C4: `else    {` with the suffix of the test `TestElse`. -/
theorem ParseExpression_else_witness :
    ParseExpression (frontEndOn [] ⟨[]⟩ none)
        (lit "else" ++ lit "    " ++ (lit "\x7b" ++ lit "\n<div>\nelse content\n\t</div>\x7d"))
      = some (lit "else" ++ lit "    " ++ lit "\x7b", none) :=
  ParseExpression_else (frontEndOn [] ⟨[]⟩ none) (lit "    ")
    (lit "\n<div>\nelse content\n\t</div>\x7d") (by decide) (by decide)

/-- Counterexample to C4 as stated: on `else{`, with no padding, the pattern
`^else\s+{` does not match, the content goes to the bare-expression rule, and
`ParseExpression` returns the error `ErrExpectedNodeNotFound` instead of `else{`. -/
theorem ParseExpression_else_no_padding :
    elseRegex.FindString elseContent = [] ∧
    ParseExpression (frontEndOn (scaffold ++ elseContent) elseFile
        (some (.parseErr "expected statement, found 'else'"))) elseContent
      = some ([], some .ErrExpectedNodeNotFound) := by
  constructor
  · decide
  · decide

theorem ParseExpression_of_elseIf (ParseFile : GoFrontEnd) (c g0 g1 : GoString)
    (hm : elseRegex.FindString c = []) (hg : elseIfRegex.FindStringSubmatch c = [g0, g1]) :
    ParseExpression ParseFile c =
      match parseExp ParseFile (TrimPrefix c g1) .IfExtractor with
      | none => none
      | some (expr, some err) => some (expr, some err)
      | some (expr, none) => some (g1 ++ expr, none) := by
  simp only [ParseExpression, hm, hg, ne_eq, not_true_eq_false, if_false, List.length_cons,
    List.length_nil, List.getD_cons_succ, List.getD_cons_zero]
  rcases parseExp ParseFile (TrimPrefix c g1) .IfExtractor with _ | ⟨e, _ | err⟩ <;> simp

/-- Claim C5. For every content that is `else`, one or more whitespace characters
`ws`, then `if`, then any text: with `p` the leading `else` and `ws`, and `r` the
remainder from `if` on, if the If rule on `r` returns the text `t` with a nil error
then `ParseExpression` returns `p ++ t` with a nil error, and if the If rule fails on
`r` then `ParseExpression` fails with the same error (and the same text). -/
theorem ParseExpression_else_if (ParseFile : GoFrontEnd) (ws rest : GoString)
    (hne : ws ≠ []) (hws : ∀ b ∈ ws, isSpace b = true) :
    (∀ t, parseExp ParseFile (lit "if" ++ rest) .IfExtractor = some (t, none) →
      ParseExpression ParseFile (lit "else" ++ ws ++ (lit "if" ++ rest))
        = some (lit "else" ++ ws ++ t, none)) ∧
    (∀ t e, parseExp ParseFile (lit "if" ++ rest) .IfExtractor = some (t, some e) →
      ParseExpression ParseFile (lit "else" ++ ws ++ (lit "if" ++ rest)) = some (t, some e)) := by
  obtain ⟨h1, h2, h3⟩ := else_scan ws (lit "if" ++ rest) hws (by intro b hb; cases hb; rfl)
  have hm : elseRegex.FindString (lit "else" ++ ws ++ (lit "if" ++ rest)) = [] := by
    simp only [elseRegex.FindString, h1, h2, h3, if_true]
    rw [if_neg]
    rintro ⟨-, h⟩
    have hf : HasPrefix (lit "if" ++ rest) (lit "\x7b") = false := rfl
    rw [hf] at h
    exact Bool.false_ne_true h
  have hg : elseIfRegex.FindStringSubmatch (lit "else" ++ ws ++ (lit "if" ++ rest))
      = [lit "else" ++ ws ++ lit "if", lit "else" ++ ws] := by
    simp only [elseIfRegex.FindStringSubmatch, h1, h2, h3, if_true]
    rw [if_pos ⟨hne, HasPrefix_append _ _⟩]
  have ht : TrimPrefix (lit "else" ++ ws ++ (lit "if" ++ rest)) (lit "else" ++ ws)
      = lit "if" ++ rest := by
    rw [TrimPrefix, HasPrefix_append, if_pos rfl, List.drop_left]
  have key := ParseExpression_of_elseIf ParseFile _ _ _ hm hg
  rw [ht] at key
  constructor
  · intro t h
    rw [key, h]
  · intro t e h
    rw [key, h]

/-- Witness for C5: `else   if   true {` of the test `TestElse`. -/
theorem ParseExpression_else_if_witness :
    ParseExpression (frontEndOn (scaffold ++ (lit "if" ++ elseIfRest)) elseIfFile none)
        (lit "else" ++ lit "   " ++ (lit "if" ++ elseIfRest))
      = some (lit "else" ++ lit "   " ++ lit "if   true \x7b", none) :=
  (ParseExpression_else_if (frontEndOn (scaffold ++ (lit "if" ++ elseIfRest)) elseIfFile none)
    (lit "   ") elseIfRest (by decide) (by decide)).1 (lit "if   true \x7b") (by decide)

theorem take_of_HasPrefix (s p : GoString) (h : HasPrefix s p = true) : s.take p.length = p := by
  obtain ⟨r, rfl⟩ := (HasPrefix_iff s p).1 h
  simp

/-- Claim C6. Let `content` be matched by none of the else, else-if, case, default, if,
for and switch prefixes, and let the Expr rule return on it the text `e`, no longer
than `content`, with a nil error. If what follows the first `len(e)` bytes of
`content` begins with `...`, then `ParseExpression` returns `e ++ "..."`, three bytes
more; otherwise it returns `e`. -/
theorem ParseExpression_spread (ParseFile : GoFrontEnd) (content e : GoString)
    (h1 : elseRegex.FindString content = [])
    (h2 : elseIfRegex.FindStringSubmatch content = [])
    (h3 : HasPrefix content (lit "case") = false)
    (h4 : HasPrefix content (lit "default") = false)
    (h5 : HasPrefix content (lit "if") = false)
    (h6 : HasPrefix content (lit "for") = false)
    (h7 : HasPrefix content (lit "switch") = false)
    (hexpr : parseExp ParseFile content .ExprExtractor = some (e, none))
    (hlen : e.length ≤ content.length) :
    ParseExpression ParseFile content =
      some (if HasPrefix (content.drop e.length) (lit "...") then e ++ lit "..." else e, none) := by
  have hs := slice_nat content e.length content.length hlen (le_refl _)
  rw [List.take_of_length_le (by simp)] at hs
  simp only [ParseExpression, h1, h2, h3, h4, h5, h6, h7, hexpr, hs, prefixDispatch, prefixTable,
    ne_eq, not_true_eq_false, if_false, List.length_nil, gt_iff_lt, Nat.not_lt_zero,
    Bool.or_self, Bool.false_eq_true]
  by_cases hp : HasPrefix (content.drop e.length) (lit "...") = true
  · have := take_of_HasPrefix _ _ hp
    rw [show (lit "...").length = 3 from rfl] at this
    simp [hp, this]
  · simp [hp]

/-- Witness for C6: `children... }` of the test `TestChildren`. -/
theorem ParseExpression_spread_witness :
    ParseExpression (frontEndOn (scaffold ++ childrenContent) childrenFile
        (some (.parseErr "expected ';', found '...'"))) childrenContent
      = some (if HasPrefix (childrenContent.drop (lit "children").length) (lit "...")
          then lit "children" ++ lit "..." else lit "children", none) ∧
    HasPrefix (childrenContent.drop (lit "children").length) (lit "...") = true :=
  ⟨ParseExpression_spread _ childrenContent (lit "children") (by decide) (by decide)
    (by decide) (by decide) (by decide) (by decide) (by decide) (by decide) (by decide),
    by decide⟩

/-- Claim C3, as amended. Let `content` begin with `case` or `default`, and let the
parse of the scaffold followed by `switch {`, a newline, `content`, a newline and `}`
have `templ_container` as its only function declaration, with a first statement that
is a switch statement whose first body element is a clause that starts at the first
byte of `content` and has its colon at content offset `k`. Then `ParseExpression
content` returns `content[0..k]`, the colon included, with a nil error: no byte of the
synthetic lines around the content is in it. -/
theorem ParseExpression_case (ParseFile : GoFrontEnd) (content : GoString) (file : File)
    (perr : Option GoError) (sw lb ce se : Nat) (clauses more : List Stmt)
    (others : List Decl) (k : Nat)
    (hpre : HasPrefix content (lit "case") = true ∨ HasPrefix content (lit "default") = true)
    (hparse : ParseFile (scaffold ++ (lit "switch \x7b\n" ++ content ++ lit "\n\x7d"))
      = (some file, perr))
    (hdecls : file.Decls = Decl.FuncDecl (lit "templ_container")
      (some (Stmt.SwitchStmt sw lb
        (Stmt.CaseClause (scaffold.length + (lit "switch \x7b\n").length + 1)
          (scaffold.length + (lit "switch \x7b\n").length + k + 1) ce :: clauses) se :: more))
      :: others)
    (hothers : ∀ d ∈ others, d = Decl.OtherDecl)
    (hk : k < content.length) :
    ParseExpression ParseFile content = some (content.take (k + 1), none) := by
  have hd : elseRegex.FindString content = [] ∧ elseIfRegex.FindStringSubmatch content = [] := by
    rcases hpre with h | h <;> obtain ⟨r, rfl⟩ := (HasPrefix_iff _ _).1 h <;> exact ⟨rfl, rfl⟩
  have hor : (HasPrefix content (lit "case") || HasPrefix content (lit "default")) = true := by
    rcases hpre with h | h <;> simp [h]
  have hsl : slice (scaffold ++ (lit "switch \x7b\n" ++ content ++ lit "\n\x7d"))
      (((scaffold.length + (lit "switch \x7b\n").length + 1 : Nat) : Int) - 1)
      ((scaffold.length + (lit "switch \x7b\n").length + k + 1 : Nat) : Int)
      = some (content.take (k + 1)) := by
    have := slice_nat (scaffold ++ (lit "switch \x7b\n" ++ content ++ lit "\n\x7d"))
      (scaffold.length + (lit "switch \x7b\n").length)
      (scaffold.length + (lit "switch \x7b\n").length + k + 1) (by omega)
      (by simp only [List.length_append]; omega)
    have e1 : (((scaffold.length + (lit "switch \x7b\n").length + 1 : Nat) : Int) - 1)
        = ((scaffold.length + (lit "switch \x7b\n").length : Nat) : Int) := by push_cast; ring
    rw [e1, this]
    have e2 : scaffold ++ (lit "switch \x7b\n" ++ content ++ lit "\n\x7d")
        = (scaffold ++ lit "switch \x7b\n") ++ (content ++ lit "\n\x7d") := by
      simp only [List.append_assoc]
    have e3 : scaffold.length + (lit "switch \x7b\n").length = (scaffold ++ lit "switch \x7b\n").length := by
      simp
    rw [e2, e3, List.drop_left]
    have e4 : (scaffold ++ lit "switch \x7b\n").length + k + 1 - (scaffold ++ lit "switch \x7b\n").length
        = k + 1 := by omega
    rw [e4, List.take_append_of_le_length (by omega)]
  simp only [ParseExpression, hd.1, hd.2, hor, parseExp, hparse, hdecls, parseExp.inspect,
    Extractor.Code, CaseExtractor.Code, hsl, inspect_others _ _ _ hothers,
    ne_eq, not_true_eq_false, if_false, if_true, List.length_nil, gt_iff_lt, Nat.not_lt_zero,
    List.length_cons]
  simp

/-- Witness for C3: `case x > 3, x < 4:` of the test `TestCase`. -/
theorem ParseExpression_case_witness :
    ParseExpression (frontEndOn (scaffold ++ (lit "switch \x7b\n" ++ caseContent ++ lit "\n\x7d"))
        caseFile none) caseContent
      = some (caseContent.take (17 + 1), none) ∧
    caseContent.take (17 + 1) = lit "case x > 3, x < 4:" :=
  ⟨ParseExpression_case _ caseContent caseFile none 39 46 66 68 [] [] [] 17
    (Or.inl (by decide)) (if_pos rfl) rfl (by simp) (by decide), by decide⟩

/-- Counterexample to C3 as stated, on two contents that begin with `default` and
`case`. On `defaultValue` the synthetic switch has no clause and `CaseExtractor.Code`
panics on `sw.Body.List[0]`. On `case 1:`, newline, `}`, newline, `}`, newline,
`func f() {}` the clause text is extracted, but the declaration of `f` makes `parseExp`
return the error `ErrContainerFuncNotFound`. -/
theorem ParseExpression_case_fails :
    ParseExpression (frontEndOn (scaffold ++ (lit "switch \x7b\n" ++ identContent ++ lit "\n\x7d"))
        identFile (some (.parseErr "expected '\x7d', found defaultValue"))) identContent
      = none ∧
    ParseExpression
        (frontEndOn (scaffold ++ (lit "switch \x7b\n" ++ caseFuncContent ++ lit "\n\x7d"))
          caseFuncFile (some (.parseErr "expected declaration, found '\x7d'")))
        caseFuncContent
      = some (lit "case 1:", some .ErrContainerFuncNotFound) := by
  constructor
  · decide
  · decide

/-! ## The scanner: lemmas and claims C7 to C10 -/

theorem HasPrefix_length (s p : GoString) (h : HasPrefix s p = true) : p.length ≤ s.length := by
  obtain ⟨r, rfl⟩ := (HasPrefix_iff s p).1 h
  simp

theorem HasPrefix_of_take (s p : GoString)
    (h : s.take p.length = p) : HasPrefix s p = true := by
  rw [HasPrefix_iff]
  have := List.take_append_drop p.length s
  rw [h] at this
  exact ⟨_, this⟩

/-! ### Cursor arithmetic -/

theorem Input.advance_zero (pi : Input) : pi.advance 0 = pi := rfl

theorem Input.advance_advance (pi : Input) (a b : Nat) :
    (pi.advance a).advance b = pi.advance (a + b) := by
  simp [Input.advance, Nat.add_assoc]

theorem Input.rest_length (pi : Input) : pi.rest.length = pi.s.length - pi.charIndex := by
  simp [Input.rest]

theorem Input.rest_advance (pi : Input) (n : Nat) : (pi.advance n).rest = pi.rest.drop n := by
  simp [Input.rest, Input.advance, List.drop_drop, Nat.add_comm]

theorem Input.span_add (pi : Input) (a b : Nat) :
    pi.span (a + b) = pi.span a ++ (pi.advance a).span b := by
  simp [Input.span, Input.rest_advance, List.take_add]

theorem Input.Peek_eq (pi : Input) (n : Nat) :
    pi.Peek n = if pi.charIndex + n ≤ pi.s.length then some (pi.span n) else none := by
  unfold Input.Peek Input.span Input.rest
  by_cases h : pi.charIndex + n ≤ pi.s.length
  · rw [if_neg (by omega), if_pos h]
  · rw [if_pos (by omega), if_neg h]

theorem Input.Take_eq (pi : Input) (n : Nat) :
    pi.Take n = if pi.charIndex + n ≤ pi.s.length then some (pi.span n, pi.advance n)
      else none := by
  unfold Input.Take Input.span Input.rest Input.advance
  by_cases h : pi.charIndex + n ≤ pi.s.length
  · rw [if_neg (by omega), if_pos h]
  · rw [if_pos (by omega), if_neg h]

theorem Input.Seek_advance (pi : Input) (n : Nat) (h : pi.wf) :
    (pi.advance n).Seek pi.charIndex = pi := by
  unfold Input.Seek Input.advance
  rw [if_neg (by unfold Input.wf at h; simp; omega)]

theorem Input.span_length (pi : Input) (n : Nat) (h : pi.charIndex + n ≤ pi.s.length) :
    (pi.span n).length = n := by
  simp [Input.span, Input.rest]; omega

theorem Input.wf_advance (pi : Input) (n : Nat) (h : pi.charIndex + n ≤ pi.s.length) :
    (pi.advance n).wf := h

/-! ### The combinators are sane -/

theorem String_eval (m : GoString) (pi : Input) (hwf : pi.wf) :
    parse.String m pi =
      if HasPrefix pi.rest m then .ok m (pi.advance m.length) else .noMatch pi := by
  unfold parse.String
  rw [Input.Peek_eq, Input.Take_eq]
  by_cases hlen : pi.charIndex + m.length ≤ pi.s.length
  · simp only [hlen, if_true]
    by_cases hm : pi.span m.length = m
    · have hp : HasPrefix pi.rest m = true :=
        HasPrefix_of_take _ _ hm
      simp [hm, hp]
    · have hp : ¬ HasPrefix pi.rest m = true := fun h => hm (take_of_HasPrefix _ _ h)
      simp [hm, hp]
  · have hp : ¬ HasPrefix pi.rest m = true := fun h => by
      have := HasPrefix_length _ _ h
      rw [Input.rest_length] at this
      unfold Input.wf at hwf
      omega
    simp [hlen, hp]

theorem Clean_String (m : GoString) : Clean m.length (parse.String m) := by
  intro pi hw
  rw [String_eval m pi hw]
  by_cases hp : HasPrefix pi.rest m = true
  · left
    refine ⟨m.length, le_refl _, ?_, ?_⟩
    · have := HasPrefix_length _ _ hp
      rw [Input.rest_length] at this
      unfold Input.wf at hw
      omega
    · simp only [hp, if_true, Input.span, take_of_HasPrefix _ _ hp]
  · right; simp [hp]

theorem Clean_mono {k k1 : Nat} {p : Parser GoString} (h : Clean k p) (hk : k1 ≤ k) :
    Clean k1 p := by
  intro pi hwf
  rcases h pi hwf with ⟨n, hn, hlen, he⟩ | he
  · exact Or.inl ⟨n, le_trans hk hn, hlen, he⟩
  · exact Or.inr he

theorem Sane_of_Clean {k : Nat} {p : Parser GoString} (h : Clean k p) : Sane k p := by
  intro pi hwf
  rcases h pi hwf with ⟨n, hn, hlen, he⟩ | he
  · exact Or.inl ⟨_, n, hn, hlen, he⟩
  · exact Or.inr ⟨0, by unfold Input.wf at hwf; omega, by rw [Input.advance_zero]; exact he⟩

theorem Sane_mono {α : Type} {k k1 : Nat} {p : Parser α} (h : Sane k p) (hk : k1 ≤ k) :
    Sane k1 p := by
  intro pi hwf
  rcases h pi hwf with ⟨v, n, hn, hlen, he⟩ | he
  · exact Or.inl ⟨v, n, le_trans hk hn, hlen, he⟩
  · exact Or.inr he

theorem Clean_RuneWhere (f : UInt8 → Bool) : Clean 1 (parse.RuneWhere f) := by
  intro pi hwf
  unfold parse.RuneWhere
  rw [Input.Peek_eq, Input.Take_eq]
  by_cases hlen : pi.charIndex + 1 ≤ pi.s.length
  · simp only [hlen, if_true]
    have hl := Input.span_length pi 1 hlen
    match hs : pi.span 1, hl with
    | [b], _ =>
      by_cases hf : f b = true
      · left; exact ⟨1, le_refl _, hlen, by simp [hf, hs]⟩
      · right; simp [hf]
  · right; simp [hlen]

theorem Clean_Any (k : Nat) (ps : List (Parser GoString)) (h : ∀ p ∈ ps, Clean k p) :
    Clean k (parse.Any ps) := by
  induction ps with
  | nil => intro pi _; right; rfl
  | cons p ps ih =>
    intro pi hwf
    rcases h p (by simp) pi hwf with ⟨n, hn, hlen, he⟩ | he
    · left; exact ⟨n, hn, hlen, by simp [parse.Any, he]⟩
    · have := ih (fun q hq => h q (by simp [hq])) pi hwf
      simpa [parse.Any, he] using this

theorem StringFrom_run {α : Type} (ps : List (Parser α)) (hps : ∀ q ∈ ps, Sane 0 q)
    (pi : Input) (hwf : pi.wf) (a : Nat) (ha : pi.charIndex + a ≤ pi.s.length) :
    (∃ n, a ≤ n ∧ pi.charIndex + n ≤ pi.s.length ∧
      parse.StringFrom.run pi.charIndex ps (pi.advance a) = .ok (pi.span n) (pi.advance n)) ∨
    parse.StringFrom.run pi.charIndex ps (pi.advance a) = .noMatch pi := by
  induction ps generalizing a with
  | nil =>
    left
    refine ⟨a, le_refl _, ha, ?_⟩
    simp only [parse.StringFrom.run, Input.Index, Input.Seek_advance pi a hwf, Input.Take_eq]
    have e : (pi.advance a).charIndex - pi.charIndex = a := by simp [Input.advance]
    simp [e, ha]
  | cons q qs ih =>
    rcases hps q (by simp) (pi.advance a) ha with ⟨v, n, -, hlen, he⟩ | ⟨n, hlen, he⟩
    · rw [Input.advance_advance] at he
      have hlen1 : pi.charIndex + (a + n) ≤ pi.s.length := by
        simp only [Input.advance] at hlen; omega
      rcases ih (fun r hr => hps r (by simp [hr])) (a + n) hlen1 with ⟨m, hm, hl, hr⟩ | hr
      · left; exact ⟨m, by omega, hl, by simp only [parse.StringFrom.run, he, hr]⟩
      · right; simp only [parse.StringFrom.run, he, hr]
    · right
      rw [Input.advance_advance] at he
      simp only [parse.StringFrom.run, he, Input.Seek_advance pi _ hwf]

theorem Clean_StringFrom {α : Type} (k : Nat) (p : Parser α) (ps : List (Parser α))
    (hp : Sane k p) (hps : ∀ q ∈ ps, Sane 0 q) : Clean k (parse.StringFrom (p :: ps)) := by
  intro pi hwf
  unfold parse.StringFrom
  rcases hp pi hwf with ⟨v, n, hn, hlen, he⟩ | ⟨n, hlen, he⟩
  · rcases StringFrom_run ps hps pi hwf n hlen with ⟨m, hm, hl, hr⟩ | hr
    · left; exact ⟨m, by omega, hl, by simp only [parse.StringFrom.run, Input.Index, he, hr]⟩
    · right; simp only [parse.StringFrom.run, Input.Index, he, hr]
  · right
    simp only [parse.StringFrom.run, Input.Index, he, Input.Seek_advance pi _ hwf]

theorem StringUntil_loop {α : Type} (d : Parser α) (hd : Sane 0 d) (fuel : Nat) (pi : Input)
    (a : Nat) (ha : pi.charIndex + a ≤ pi.s.length)
    (hf : pi.s.length - (pi.charIndex + a) < fuel) :
    (∃ n, a ≤ n ∧ pi.charIndex + n ≤ pi.s.length ∧
      parse.StringUntil.loop d fuel (pi.advance a) = .ok () (pi.advance n)) ∨
    (∃ n, pi.charIndex + n ≤ pi.s.length ∧
      parse.StringUntil.loop d fuel (pi.advance a) = .noMatch (pi.advance n)) := by
  induction fuel generalizing a with
  | zero => omega
  | succ fuel ih =>
    have hwa : (pi.advance a).wf := ha
    rcases hd (pi.advance a) hwa with ⟨v, n, -, hlen, he⟩ | ⟨n, hlen, he⟩
    · left
      refine ⟨a, le_refl _, ha, ?_⟩
      simp only [parse.StringUntil.loop, he, Input.Index, Input.Seek_advance _ n hwa]
    · rw [Input.advance_advance] at he
      simp only [Input.advance] at hlen
      by_cases hlast : pi.charIndex + (a + n) + 1 ≤ pi.s.length
      · have ht : (pi.advance (a + n)).Take 1
            = some ((pi.advance (a + n)).span 1, pi.advance (a + n + 1)) := by
          rw [Input.Take_eq, if_pos (by simpa [Input.advance] using hlast),
            Input.advance_advance]
        rcases ih (a + n + 1) (by omega) (by omega) with ⟨m, hm, hl, hr⟩ | ⟨m, hl, hr⟩
        · left; exact ⟨m, by omega, hl, by simp only [parse.StringUntil.loop, he, ht, hr]⟩
        · right; exact ⟨m, hl, by simp only [parse.StringUntil.loop, he, ht, hr]⟩
      · have ht : (pi.advance (a + n)).Take 1 = none := by
          rw [Input.Take_eq, if_neg (by simpa [Input.advance] using hlast)]
        right
        exact ⟨a + n, by omega, by simp only [parse.StringUntil.loop, he, ht]⟩

theorem Sane_StringUntil {α : Type} (d : Parser α) (hd : Sane 0 d) :
    Sane 0 (parse.StringUntil d) := by
  intro pi hwf
  have hw : pi.charIndex ≤ pi.s.length := hwf
  unfold parse.StringUntil
  have h0 := StringUntil_loop d hd (pi.s.length - pi.charIndex + 1) pi 0 (by omega)
    (by omega)
  rw [Input.advance_zero] at h0
  rcases h0 with ⟨n, -, hl, hr⟩ | ⟨n, hl, hr⟩
  · left
    refine ⟨pi.span n, n, Nat.zero_le _, hl, ?_⟩
    simp only [hr, Input.Index, Input.Seek_advance pi n hwf, Input.Take_eq]
    have e : (pi.advance n).charIndex - pi.charIndex = n := by simp [Input.advance]
    simp [e, hl]
  · right
    exact ⟨n, hl, by simp only [hr]⟩

theorem Until_loop {α β : Type} (p : Parser α) (d : Parser β) (hp : Sane 1 p) (hd : Sane 0 d)
    (fuel : Nat) (acc : List α) (pi : Input) (hwf : pi.wf)
    (hf : pi.s.length - pi.charIndex < fuel) :
    (∃ v n, pi.charIndex + n ≤ pi.s.length ∧
      parse.Until.loop p d fuel acc pi = .ok v (pi.advance n)) ∨
    (∃ n, pi.charIndex + n ≤ pi.s.length ∧
      parse.Until.loop p d fuel acc pi = .noMatch (pi.advance n)) := by
  induction fuel generalizing acc pi with
  | zero => omega
  | succ fuel ih =>
    have hw : pi.charIndex ≤ pi.s.length := hwf
    rcases hp pi hwf with ⟨v, m, hm, hlen1, he1⟩ | ⟨m, hlen1, he1⟩
    · have hwa : (pi.advance m).wf := hlen1
      rcases hd (pi.advance m) hwa with ⟨w, n, -, hlen, he⟩ | ⟨n, hlen, he⟩
      · left
        refine ⟨acc ++ [v], m, hlen1, ?_⟩
        simp only [parse.Until.loop, he1, he, Input.Index, Input.Seek_advance _ n hwa]
      · rw [Input.advance_advance] at he
        simp only [Input.advance] at hlen
        have hwb : (pi.advance (m + n)).wf := by
          show pi.charIndex + (m + n) ≤ pi.s.length
          omega
        rcases ih (acc ++ [v]) (pi.advance (m + n)) hwb
            (by simp only [Input.advance]; omega) with ⟨w, j, hj, hr⟩ | ⟨j, hj, hr⟩
        · left
          rw [Input.advance_advance] at hr
          simp only [Input.advance] at hj
          exact ⟨w, m + n + j, by omega, by simp only [parse.Until.loop, he1, he, hr]⟩
        · right
          rw [Input.advance_advance] at hr
          simp only [Input.advance] at hj
          exact ⟨m + n + j, by omega, by simp only [parse.Until.loop, he1, he, hr]⟩
    · right
      exact ⟨m, hlen1, by simp only [parse.Until.loop, he1]⟩

theorem Sane_Until {α β : Type} (p : Parser α) (d : Parser β) (hp : Sane 1 p) (hd : Sane 0 d) :
    Sane 0 (parse.Until p d) := by
  intro pi hwf
  have hw : pi.charIndex ≤ pi.s.length := hwf
  unfold parse.Until
  rcases Until_loop p d hp hd (pi.s.length - pi.charIndex + 1) [] pi hwf (by omega)
    with ⟨v, n, hl, hr⟩ | ⟨n, hl, hr⟩
  · exact Or.inl ⟨v, n, Nat.zero_le _, hl, hr⟩
  · exact Or.inr ⟨n, hl, hr⟩

theorem Clean_EOF : Clean 0 parse.EOF := by
  intro pi hwf
  unfold parse.EOF
  rw [Input.Peek_eq]
  by_cases h : pi.charIndex + 1 ≤ pi.s.length
  · right; simp [h]
  · left
    refine ⟨0, le_refl _, hwf, ?_⟩
    simp [h, Input.span, Input.advance_zero]

/-! ### The parsers of the scanner are clean -/

theorem Clean_Rune (r : Char) : Clean (String.utf8EncodeChar r).length (parse.Rune r) :=
  Clean_String _

theorem Clean_NewLine : Clean 1 parse.NewLine := by
  unfold parse.NewLine
  apply Clean_Any
  intro p hp
  simp only [List.mem_cons, List.mem_singleton, List.not_mem_nil, or_false] at hp
  rcases hp with rfl | rfl
  · exact Clean_mono (Clean_String _) (by decide)
  · exact Clean_mono (Clean_Rune _) (by decide)

theorem Clean_jsSingleLineComment : Clean 1 jsSingleLineComment := by
  unfold jsSingleLineComment
  apply Clean_StringFrom
  · exact Sane_of_Clean (Clean_mono (Clean_String _) (by decide))
  · intro q hq
    simp only [List.mem_singleton] at hq
    subst hq
    apply Sane_StringUntil
    apply Sane_of_Clean
    apply Clean_Any
    intro p hp
    simp only [List.mem_cons, List.mem_singleton, List.not_mem_nil, or_false] at hp
    rcases hp with rfl | rfl
    · exact Clean_mono Clean_NewLine (by decide)
    · exact Clean_EOF

theorem Clean_jsOrGoMultiLineComment : Clean 1 jsOrGoMultiLineComment := by
  unfold jsOrGoMultiLineComment
  apply Clean_StringFrom
  · exact Sane_of_Clean (Clean_mono (Clean_String _) (by decide))
  · intro q hq
    simp only [List.mem_singleton] at hq
    subst hq
    exact Sane_StringUntil _ (Sane_of_Clean (Clean_mono (Clean_String _) (Nat.zero_le _)))

theorem Clean_hex_digit : Clean 1 hex_digit := Clean_RuneWhere _

theorem Clean_octal_digit : Clean 1 octal_digit := Clean_RuneWhere _

theorem Clean_escape (m : GoString) (hm : 1 ≤ m.length) (ds : List (Parser GoString))
    (hds : ∀ q ∈ ds, Clean 1 q) : Clean 1 (parse.StringFrom (parse.String m :: ds)) :=
  Clean_StringFrom 1 _ _ (Sane_of_Clean (Clean_mono (Clean_String m) hm))
    (fun q hq => Sane_mono (Sane_of_Clean (hds q hq)) (Nat.zero_le _))

theorem Clean_little_u_value : Clean 1 little_u_value :=
  Clean_escape _ (by decide) _ (by
    intro q hq
    simp only [List.mem_cons, List.mem_singleton, List.not_mem_nil, or_false, or_self] at hq
    subst hq; exact Clean_hex_digit)

theorem Clean_big_u_value : Clean 1 big_u_value :=
  Clean_escape _ (by decide) _ (by
    intro q hq
    simp only [List.mem_cons, List.mem_singleton, List.not_mem_nil, or_false, or_self] at hq
    subst hq; exact Clean_hex_digit)

theorem Clean_octal_byte_value : Clean 1 octal_byte_value :=
  Clean_escape _ (by decide) _ (by
    intro q hq
    simp only [List.mem_cons, List.mem_singleton, List.not_mem_nil, or_false, or_self] at hq
    subst hq; exact Clean_octal_digit)

theorem Clean_hex_byte_value : Clean 1 hex_byte_value :=
  Clean_escape _ (by decide) _ (by
    intro q hq
    simp only [List.mem_cons, List.mem_singleton, List.not_mem_nil, or_false, or_self] at hq
    subst hq; exact Clean_hex_digit)

theorem Clean_byte_value : Clean 1 byte_value := by
  unfold byte_value
  apply Clean_Any
  intro p hp
  simp only [List.mem_cons, List.mem_singleton, List.not_mem_nil, or_false] at hp
  rcases hp with rfl | rfl
  · exact Clean_octal_byte_value
  · exact Clean_hex_byte_value

theorem Clean_escaped_char : Clean 1 escaped_char := by
  unfold escaped_char
  refine Clean_escape _ (by decide) _ ?_
  intro q hq
  simp only [List.mem_singleton] at hq
  subst hq
  apply Clean_Any
  intro p hp
  simp only [List.mem_cons, List.mem_singleton, List.not_mem_nil, or_false] at hp
  rcases hp with rfl | rfl | rfl | rfl | rfl | rfl | rfl | rfl | rfl | rfl <;>
    exact Clean_mono (Clean_Rune _) (by decide)

theorem Clean_unicode_value (set : GoString) :
    Clean 1 (parse.Any [little_u_value, big_u_value, escaped_char, parse.RuneNotIn set]) := by
  apply Clean_Any
  intro p hp
  simp only [List.mem_cons, List.mem_singleton, List.not_mem_nil, or_false] at hp
  rcases hp with rfl | rfl | rfl | rfl
  · exact Clean_little_u_value
  · exact Clean_big_u_value
  · exact Clean_escaped_char
  · exact Clean_RuneWhere _

theorem Clean_quoted (q : Char) (hq : 1 ≤ (String.utf8EncodeChar q).length)
    (elem : Parser GoString) (helem : Clean 1 elem) :
    Clean 1 (parse.StringFrom [parse.Rune q,
      parse.StringFrom [parse.Until elem (parse.Rune q)], parse.Rune q]) := by
  apply Clean_StringFrom
  · exact Sane_of_Clean (Clean_mono (Clean_Rune q) hq)
  · intro p hp
    simp only [List.mem_cons, List.mem_singleton, List.not_mem_nil, or_false] at hp
    rcases hp with rfl | rfl
    · apply Sane_of_Clean
      apply Clean_StringFrom
      · exact Sane_Until _ _ (Sane_of_Clean helem)
          (Sane_of_Clean (Clean_mono (Clean_Rune q) (Nat.zero_le _)))
      · intro r hr; simp at hr
    · exact Sane_of_Clean (Clean_mono (Clean_Rune q) (Nat.zero_le _))

theorem Clean_string_lit : Clean 1 string_lit := by
  unfold string_lit
  apply Clean_Any
  intro p hp
  simp only [List.mem_cons, List.mem_singleton, List.not_mem_nil, or_false] at hp
  rcases hp with rfl | rfl
  · refine Clean_quoted _ (by decide) _ ?_
    apply Clean_Any
    intro p hp
    simp only [List.mem_cons, List.mem_singleton, List.not_mem_nil, or_false] at hp
    rcases hp with rfl | rfl
    · exact Clean_unicode_value _
    · exact Clean_byte_value
  · exact Clean_quoted _ (by decide) _ (Clean_unicode_value _)

theorem Clean_rune_lit : Clean 1 rune_lit := by
  refine Clean_quoted _ (by decide) _ ?_
  apply Clean_Any
  intro p hp
  simp only [List.mem_cons, List.mem_singleton, List.not_mem_nil, or_false] at hp
  rcases hp with rfl | rfl
  · exact Clean_unicode_value _
  · exact Clean_byte_value

theorem Clean_openBrace : Clean 1 openBrace := Clean_mono (Clean_String _) (by decide)

theorem closeBrace_eval (pi : Input) (hwf : pi.wf) :
    closeBraceWithOptionalPadding pi =
      if HasPrefix pi.rest (lit " \x7d") then .ok (lit " \x7d") (pi.advance 2)
      else if HasPrefix pi.rest (lit "\x7d") then .ok (lit "\x7d") (pi.advance 1)
      else .noMatch pi := by
  unfold closeBraceWithOptionalPadding closeBraceWithPadding closeBrace
  have e1 := String_eval (lit " \x7d") pi hwf
  have e2 := String_eval (lit "\x7d") pi hwf
  have l1 : (lit " \x7d").length = 2 := rfl
  have l2 : (lit "\x7d").length = 1 := rfl
  rw [l1] at e1
  rw [l2] at e2
  cases h1 : HasPrefix pi.rest (lit " \x7d") <;> cases h2 : HasPrefix pi.rest (lit "\x7d") <;>
    simp [parse.Any, e1, e2, h1, h2]

/-! ### One pass of the loop -/

theorem tryParser_clean (p : Parser GoString) (hp : Clean 1 p) (pi : Input) (hwf : pi.wf)
    (onMatch : GoString → Input → Step) (onNoMatch : Input → Step) :
    (∃ n, 1 ≤ n ∧ pi.charIndex + n ≤ pi.s.length ∧
      tryParser p pi onMatch onNoMatch = onMatch (pi.span n) (pi.advance n)) ∨
    tryParser p pi onMatch onNoMatch = onNoMatch pi := by
  rcases hp pi hwf with ⟨n, hn, hlen, he⟩ | he
  · exact Or.inl ⟨n, hn, hlen, by simp only [tryParser, he]⟩
  · exact Or.inr (by simp only [tryParser, he])

theorem step_cases (bc : Int) (sb : GoString) (pi : Input) (hwf : pi.wf) :
    (∃ n, 1 ≤ n ∧ pi.charIndex + n ≤ pi.s.length ∧
      (jsExpressionParser.step bc sb pi = .next bc (sb ++ pi.span n) (pi.advance n) ∨
       jsExpressionParser.step bc sb pi = .next (bc + 1) (sb ++ pi.span n) (pi.advance n))) ∨
    (pi.atCloser ∧ ∃ n, 1 ≤ n ∧ pi.charIndex + n ≤ pi.s.length ∧
      jsExpressionParser.step bc sb pi =
        (if bc - 1 < 0 then
          .ret (.error ⟨"expression: too many closing braces", pi.charIndex + n⟩ (pi.advance n))
         else if bc - 1 = 0 then .brk (bc - 1) sb pi
         else .next (bc - 1) (sb ++ pi.span n) (pi.advance n))) ∨
    (pi.charIndex = pi.s.length ∧ jsExpressionParser.step bc sb pi = .brk bc sb pi) := by
  have hw : pi.charIndex ≤ pi.s.length := hwf
  unfold jsExpressionParser.step
  rcases tryParser_clean _ Clean_jsSingleLineComment pi hwf _ _ with ⟨n, hn, hl, he⟩ | he
  · exact Or.inl ⟨n, hn, hl, Or.inl he⟩
  rw [he]; clear he
  rcases tryParser_clean _ Clean_jsOrGoMultiLineComment pi hwf _ _ with ⟨n, hn, hl, he⟩ | he
  · exact Or.inl ⟨n, hn, hl, Or.inl he⟩
  rw [he]; clear he
  rcases tryParser_clean _ Clean_string_lit pi hwf _ _ with ⟨n, hn, hl, he⟩ | he
  · exact Or.inl ⟨n, hn, hl, Or.inl he⟩
  rw [he]; clear he
  rcases tryParser_clean _ Clean_rune_lit pi hwf _ _ with ⟨n, hn, hl, he⟩ | he
  · exact Or.inl ⟨n, hn, hl, Or.inl he⟩
  rw [he]; clear he
  rcases tryParser_clean _ Clean_openBrace pi hwf _ _ with ⟨n, hn, hl, he⟩ | he
  · exact Or.inl ⟨n, hn, hl, Or.inr he⟩
  rw [he]; clear he
  simp only [tryParser, closeBrace_eval pi hwf, Input.Index]
  cases h1 : HasPrefix pi.rest (lit " \x7d")
  case true =>
    right; left
    have hlen := HasPrefix_length _ _ h1
    rw [Input.rest_length, show (lit " \x7d").length = 2 from rfl] at hlen
    have hspan : pi.span 2 = lit " \x7d" := take_of_HasPrefix _ _ h1
    refine ⟨Or.inl h1, 2, by omega, by omega, ?_⟩
    simp only [↓reduceIte, Input.Seek_advance pi 2 hwf, hspan]
    rfl
  cases h2 : HasPrefix pi.rest (lit "\x7d")
  case true =>
    right; left
    have hlen := HasPrefix_length _ _ h2
    rw [Input.rest_length, show (lit "\x7d").length = 1 from rfl] at hlen
    have hspan : pi.span 1 = lit "\x7d" := take_of_HasPrefix _ _ h2
    refine ⟨Or.inr h2, 1, by omega, by omega, ?_⟩
    simp only [Bool.false_eq_true, ↓reduceIte, Input.Seek_advance pi 1 hwf, hspan]
    rfl
  simp only [Bool.false_eq_true, ↓reduceIte, Input.Take_eq]
  by_cases hlen : pi.charIndex + 1 ≤ pi.s.length
  · left
    refine ⟨1, le_refl _, hlen, Or.inl ?_⟩
    have hb : ((pi.span 1).headD 0).toNat ≠ 65533 := by
      have := ((pi.span 1).headD 0).toNat_lt
      omega
    simp only [hlen, ↓reduceIte, hb]
  · right; right
    exact ⟨by omega, by simp only [hlen, ↓reduceIte]⟩

/-! ### The loop -/

theorem loop_next (fuel : Nat) (bc bc1 : Int) (sb sb1 : GoString) (pi pi1 : Input)
    (h : jsExpressionParser.step bc sb pi = .next bc1 sb1 pi1) :
    jsExpressionParser.loop (fuel + 1) bc sb pi = jsExpressionParser.loop fuel bc1 sb1 pi1 := by
  simp only [jsExpressionParser.loop, h]

theorem loop_brk (fuel : Nat) (bc bc1 : Int) (sb sb1 : GoString) (pi pi1 : Input)
    (h : jsExpressionParser.step bc sb pi = .brk bc1 sb1 pi1) :
    jsExpressionParser.loop (fuel + 1) bc sb pi = .brk bc1 sb1 pi1 := by
  simp only [jsExpressionParser.loop, h]

theorem loop_ret (fuel : Nat) (bc : Int) (sb : GoString) (pi : Input) (r : Res Expression)
    (h : jsExpressionParser.step bc sb pi = .ret r) :
    jsExpressionParser.loop (fuel + 1) bc sb pi = .ret r := by
  simp only [jsExpressionParser.loop, h]

/-- The three ways in which the loop ends, when it is given one pass per remaining
byte and one more: at a closing brace that brings the count to zero, at the end of the
input, or with the error for a closing brace met at a count of zero or less. -/
theorem loop_cases (fuel : Nat) (bc : Int) (sb : GoString) (pi : Input) (hwf : pi.wf)
    (hf : pi.s.length - pi.charIndex < fuel) :
    (∃ n, pi.charIndex + n ≤ pi.s.length ∧ (pi.advance n).atCloser ∧
      jsExpressionParser.loop fuel bc sb pi = .brk 0 (sb ++ pi.span n) (pi.advance n)) ∨
    (∃ n bc1, pi.charIndex + n = pi.s.length ∧ (1 ≤ bc → 1 ≤ bc1) ∧
      jsExpressionParser.loop fuel bc sb pi = .brk bc1 (sb ++ pi.span n) (pi.advance n)) ∨
    (∃ pos pi1, bc ≤ 0 ∧
      jsExpressionParser.loop fuel bc sb pi =
        .ret (.error ⟨"expression: too many closing braces", pos⟩ pi1)) := by
  induction fuel generalizing bc sb pi with
  | zero => omega
  | succ fuel ih =>
    have hw : pi.charIndex ≤ pi.s.length := hwf
    have hspan0 : sb ++ pi.span 0 = sb := by simp [Input.span]
    have key : ∀ (n : Nat) (bc1 : Int), 1 ≤ n → pi.charIndex + n ≤ pi.s.length →
        (1 ≤ bc → 1 ≤ bc1) → (bc ≤ 0 ∨ 0 < bc1) →
        jsExpressionParser.step bc sb pi = .next bc1 (sb ++ pi.span n) (pi.advance n) →
        (∃ n, pi.charIndex + n ≤ pi.s.length ∧ (pi.advance n).atCloser ∧
          jsExpressionParser.loop (fuel + 1) bc sb pi
            = .brk 0 (sb ++ pi.span n) (pi.advance n)) ∨
        (∃ n bc1, pi.charIndex + n = pi.s.length ∧ (1 ≤ bc → 1 ≤ bc1) ∧
          jsExpressionParser.loop (fuel + 1) bc sb pi
            = .brk bc1 (sb ++ pi.span n) (pi.advance n)) ∨
        (∃ pos pi1, bc ≤ 0 ∧
          jsExpressionParser.loop (fuel + 1) bc sb pi =
            .ret (.error ⟨"expression: too many closing braces", pos⟩ pi1)) := by
      intro n bc1 hn hl hbc hbc0 hs
      rw [loop_next fuel _ _ _ _ _ _ hs]
      have hwa : (pi.advance n).wf := hl
      rcases ih bc1 (sb ++ pi.span n) (pi.advance n) hwa
          (by simp only [Input.advance]; omega) with
        ⟨m, hm, hc, hr⟩ | ⟨m, bc2, hm, hb, hr⟩ | ⟨pos, pi1, hb, hr⟩
      · left
        simp only [Input.advance] at hm
        rw [Input.advance_advance] at hc hr
        rw [List.append_assoc, ← Input.span_add] at hr
        exact ⟨n + m, by omega, hc, hr⟩
      · right; left
        simp only [Input.advance] at hm
        rw [Input.advance_advance] at hr
        rw [List.append_assoc, ← Input.span_add] at hr
        exact ⟨n + m, bc2, by omega, fun h => hb (hbc h), hr⟩
      · right; right
        refine ⟨pos, pi1, ?_, hr⟩
        rcases hbc0 with h | h
        · exact h
        · omega
    rcases step_cases bc sb pi hwf with ⟨n, hn, hl, hs | hs⟩ | ⟨hc, n, hn, hl, hs⟩ | ⟨he, hs⟩
    · exact key n bc hn hl id (by omega) hs
    · exact key n (bc + 1) hn hl (fun h => by omega) (by omega) hs
    · by_cases h1 : bc - 1 < 0
      · right; right
        rw [if_pos h1] at hs
        exact ⟨_, _, by omega, loop_ret fuel _ _ _ _ hs⟩
      · rw [if_neg h1] at hs
        by_cases h2 : bc - 1 = 0
        · left
          rw [if_pos h2, h2] at hs
          refine ⟨0, by omega, by rw [Input.advance_zero]; exact hc, ?_⟩
          rw [hspan0, Input.advance_zero]
          exact loop_brk fuel _ _ _ _ _ _ hs
        · rw [if_neg h2] at hs
          exact key n (bc - 1) hn hl (fun _ => by omega) (by omega) hs
    · right; left
      refine ⟨0, bc, by omega, id, ?_⟩
      rw [hspan0, Input.advance_zero]
      exact loop_brk fuel _ _ _ _ _ _ hs

/-! ### Evaluating the parsers on a known next byte -/

theorem Input.wf_of_rest (pi : Input) (b : UInt8) (r : GoString) (h : pi.rest = b :: r) :
    pi.charIndex + 1 ≤ pi.s.length := by
  have := congrArg List.length h
  rw [Input.rest_length] at this
  simp at this
  omega

theorem Input.wf_of_rest_cons (pi : Input) (b : UInt8) (r : GoString) (h : pi.rest = b :: r) :
    pi.wf := by
  have := Input.wf_of_rest pi b r h
  unfold Input.wf
  omega

theorem Input.Seek_self (pi : Input) (hwf : pi.wf) : pi.Seek pi.charIndex = pi := by
  have := Input.Seek_advance pi 0 hwf
  rwa [Input.advance_zero] at this

theorem String_noMatch_of_head (m : GoString) (c : UInt8) (m1 : GoString) (hm : m = c :: m1)
    (pi : Input) (b : UInt8) (r : GoString) (hrest : pi.rest = b :: r) (hb : b ≠ c) :
    parse.String m pi = .noMatch pi := by
  rw [String_eval m pi (Input.wf_of_rest_cons pi b r hrest), hrest, hm]
  simp [HasPrefix, hb]

theorem StringFrom_noMatch_of_head {α : Type} (p : Parser α) (ps : List (Parser α))
    (pi : Input) (hwf : pi.wf) (h : p pi = .noMatch pi) :
    parse.StringFrom (p :: ps) pi = .noMatch pi := by
  simp only [parse.StringFrom, parse.StringFrom.run, h, Input.Index, Input.Seek_self pi hwf]

theorem escape_noMatch (m : GoString) (c : UInt8) (m1 : GoString) (hm : m = c :: m1)
    (ds : List (Parser GoString)) (pi : Input) (b : UInt8) (r : GoString)
    (hrest : pi.rest = b :: r) (hb : b ≠ c) :
    parse.StringFrom (parse.String m :: ds) pi = .noMatch pi :=
  StringFrom_noMatch_of_head _ _ pi (Input.wf_of_rest_cons pi b r hrest)
    (String_noMatch_of_head m c m1 hm pi b r hrest hb)

theorem RuneWhere_eval (f : UInt8 → Bool) (pi : Input) (b : UInt8) (r : GoString)
    (hrest : pi.rest = b :: r) :
    parse.RuneWhere f pi = if f b then .ok [b] (pi.advance 1) else .noMatch pi := by
  have hl := Input.wf_of_rest pi b r hrest
  have hspan : pi.span 1 = [b] := by simp [Input.span, hrest]
  unfold parse.RuneWhere
  rw [Input.Peek_eq, Input.Take_eq]
  simp only [hl, ↓reduceIte, hspan]

/-- The element parser of an interpreted string literal takes one ordinary byte. -/
theorem string_elem_eval (pi : Input) (b : UInt8) (r : GoString) (hrest : pi.rest = b :: r)
    (h1 : b ≠ 34) (h2 : b ≠ 92) (h3 : b ≠ 10) :
    parse.Any [unicode_value_interpreted, byte_value] pi = .ok [b] (pi.advance 1) := by
  have e1 : little_u_value pi = .noMatch pi :=
    escape_noMatch _ 92 _ rfl _ pi b r hrest h2
  have e2 : big_u_value pi = .noMatch pi :=
    escape_noMatch _ 92 _ rfl _ pi b r hrest h2
  have e3 : escaped_char pi = .noMatch pi :=
    escape_noMatch _ 92 _ rfl _ pi b r hrest h2
  have e4 : parse.RuneNotIn (lit "\n\x22") pi = .ok [b] (pi.advance 1) := by
    unfold parse.RuneNotIn
    rw [RuneWhere_eval _ pi b r hrest]
    have : (lit "\n\x22").contains b = false := by
      rw [show lit "\n\x22" = [10, 34] from rfl]
      simp [h1, h3]
    rw [this]
    rfl
  simp only [parse.Any, unicode_value_interpreted, e1, e2, e3, e4]

theorem Until_string_body (s tail : GoString) (hs : ∀ b ∈ s, b ≠ 34 ∧ b ≠ 92 ∧ b ≠ 10)
    (hne : s ≠ [])
    (fuel : Nat) (acc : List GoString) (pi : Input) (hrest : pi.rest = s ++ 34 :: tail)
    (hf : s.length < fuel) :
    ∃ acc1, parse.Until.loop (parse.Any [unicode_value_interpreted, byte_value])
      (parse.Rune (Char.ofNat 34)) fuel acc pi = .ok acc1 (pi.advance s.length) := by
  induction s generalizing fuel acc pi with
  | nil => exact absurd rfl hne
  | cons b s ih =>
    obtain ⟨fuel, rfl⟩ : ∃ f, fuel = f + 1 := ⟨fuel - 1, by simp at hf; omega⟩
    obtain ⟨h1, h2, h3⟩ := hs b (by simp)
    have he := string_elem_eval pi b _ hrest h1 h2 h3
    have hrest1 : (pi.advance 1).rest = s ++ 34 :: tail := by
      rw [Input.rest_advance, hrest]; rfl
    cases s with
    | nil =>
      have hwf1 := Input.wf_of_rest_cons (pi.advance 1) 34 tail hrest1
      have hd : parse.Rune (Char.ofNat 34) (pi.advance 1)
          = .ok [34] ((pi.advance 1).advance 1) := by
        unfold parse.Rune
        rw [String_eval _ _ hwf1, hrest1]
        rfl
      exact ⟨acc ++ [[b]], by simp only [parse.Until.loop, he, hd, Input.Index,
        Input.Seek_advance _ 1 hwf1, List.length_cons, List.length_nil, Nat.zero_add]⟩
    | cons c s =>
      have hc := (hs c (by simp)).1
      have hd : parse.Rune (Char.ofNat 34) (pi.advance 1) = .noMatch (pi.advance 1) :=
        String_noMatch_of_head _ 34 [] rfl (pi.advance 1) c _ hrest1 hc
      obtain ⟨acc1, h⟩ := ih (fun x hx => hs x (by simp [hx])) (by simp) fuel (acc ++ [[b]])
        (pi.advance 1) hrest1 (by simp at hf ⊢; omega)
      refine ⟨acc1, ?_⟩
      rw [Input.advance_advance] at h
      simp only [parse.Until.loop, he, hd, h, List.length_cons, Nat.add_comm]

theorem StringFrom_run_nil {α : Type} (pi : Input) (hwf : pi.wf) (a : Nat)
    (ha : pi.charIndex + a ≤ pi.s.length) :
    @parse.StringFrom.run α pi.charIndex [] (pi.advance a)
      = .ok (pi.span a) (pi.advance a) := by
  simp only [parse.StringFrom.run, Input.Index, Input.Seek_advance pi a hwf, Input.Take_eq]
  have e : (pi.advance a).charIndex - pi.charIndex = a := by simp [Input.advance]
  simp [e, ha]

theorem StringFrom_eq {α : Type} (ps : List (Parser α)) (pi : Input) :
    parse.StringFrom ps pi = parse.StringFrom.run pi.charIndex ps pi := rfl

theorem StringFrom_run_cons {α : Type} (start : Nat) (p : Parser α) (ps : List (Parser α))
    (pi pi1 : Input) (v : α) (h : p pi = .ok v pi1) :
    parse.StringFrom.run start (p :: ps) pi = parse.StringFrom.run start ps pi1 := by
  simp only [parse.StringFrom.run, h]

theorem comments_noMatch (pi : Input) (b : UInt8) (r : GoString) (hrest : pi.rest = b :: r)
    (hb : b ≠ 47) :
    jsSingleLineComment pi = .noMatch pi ∧ jsOrGoMultiLineComment pi = .noMatch pi :=
  ⟨escape_noMatch _ 47 _ rfl _ pi b r hrest hb, escape_noMatch _ 47 _ rfl _ pi b r hrest hb⟩

theorem quoted_noMatch (q : Char) (c : UInt8) (hq : String.utf8EncodeChar q = [c])
    (ps : List (Parser GoString)) (pi : Input) (b : UInt8) (r : GoString)
    (hrest : pi.rest = b :: r) (hb : b ≠ c) :
    parse.StringFrom (parse.Rune q :: ps) pi = .noMatch pi :=
  escape_noMatch _ c [] hq _ pi b r hrest hb

theorem string_lit_noMatch (pi : Input) (b : UInt8) (r : GoString) (hrest : pi.rest = b :: r)
    (h1 : b ≠ 34) (h2 : b ≠ 96) : string_lit pi = .noMatch pi := by
  have e1 : interpreted_string_lit pi = .noMatch pi :=
    quoted_noMatch (Char.ofNat 34) 34 rfl _ pi b r hrest h1
  have e2 : raw_string_lit pi = .noMatch pi :=
    quoted_noMatch (Char.ofNat 96) 96 rfl _ pi b r hrest h2
  simp only [string_lit, parse.Any, e1, e2]

theorem rune_lit_noMatch (pi : Input) (b : UInt8) (r : GoString) (hrest : pi.rest = b :: r)
    (h1 : b ≠ 39) : rune_lit pi = .noMatch pi :=
  quoted_noMatch (Char.ofNat 39) 39 rfl _ pi b r hrest h1

theorem openBrace_noMatch (pi : Input) (b : UInt8) (r : GoString) (hrest : pi.rest = b :: r)
    (h1 : b ≠ 123) : openBrace pi = .noMatch pi :=
  String_noMatch_of_head _ 123 [] rfl pi b r hrest h1

theorem interpreted_string_lit_eval (s tail : GoString)
    (hs : ∀ b ∈ s, b ≠ 34 ∧ b ≠ 92 ∧ b ≠ 10) (hne : s ≠ []) (pi : Input)
    (hrest : pi.rest = 34 :: (s ++ 34 :: tail)) :
    interpreted_string_lit pi = .ok (34 :: (s ++ [34])) (pi.advance (s.length + 2)) := by
  have hwf := Input.wf_of_rest_cons pi _ _ hrest
  have hlen : pi.s.length - pi.charIndex = s.length + 1 + (tail.length + 1) := by
    have := congrArg List.length hrest
    rw [Input.rest_length] at this
    simp at this
    omega
  have hw : pi.charIndex ≤ pi.s.length := hwf
  have hq1 : parse.Rune (Char.ofNat 34) pi = .ok [34] (pi.advance 1) := by
    unfold parse.Rune
    rw [String_eval _ pi hwf, hrest]; rfl
  have hrest1 : (pi.advance 1).rest = s ++ 34 :: tail := by
    rw [Input.rest_advance, hrest]; rfl
  have hwf1 : (pi.advance 1).wf := by
    show pi.charIndex + 1 ≤ pi.s.length
    omega
  obtain ⟨acc1, hu⟩ := Until_string_body s tail hs hne
    ((pi.advance 1).s.length - (pi.advance 1).charIndex + 1) [] (pi.advance 1) hrest1
    (by simp only [Input.advance]; omega)
  have hinner : parse.StringFrom
      [parse.Until (parse.Any [unicode_value_interpreted, byte_value]) (parse.Rune (Char.ofNat 34))]
      (pi.advance 1) = .ok ((pi.advance 1).span s.length) (pi.advance (1 + s.length)) := by
    have hu1 : parse.Until (parse.Any [unicode_value_interpreted, byte_value])
        (parse.Rune (Char.ofNat 34)) (pi.advance 1) = .ok acc1 ((pi.advance 1).advance s.length) := hu
    rw [StringFrom_eq, StringFrom_run_cons _ _ _ _ _ _ hu1,
      StringFrom_run_nil (pi.advance 1) hwf1 s.length
      (by simp only [Input.advance]; omega), Input.advance_advance]
  have hrest2 : (pi.advance (1 + s.length)).rest = 34 :: tail := by
    rw [Input.rest_advance, hrest, Nat.add_comm]
    simp
  have hwf2 := Input.wf_of_rest_cons _ _ _ hrest2
  have hq2 : parse.Rune (Char.ofNat 34) (pi.advance (1 + s.length))
      = .ok [34] (pi.advance (s.length + 2)) := by
    unfold parse.Rune
    rw [String_eval _ _ hwf2, hrest2, Input.advance_advance]
    have : 1 + s.length + (String.utf8EncodeChar (Char.ofNat 34)).length = s.length + 2 := by
      rw [show (String.utf8EncodeChar (Char.ofNat 34)).length = 1 from rfl]; omega
    rw [this]; rfl
  have hspan : pi.span (s.length + 2) = 34 :: (s ++ [34]) := by
    simp [Input.span, hrest, List.take_append_eq_append_take]
  unfold interpreted_string_lit
  rw [StringFrom_eq, StringFrom_run_cons _ _ _ _ _ _ hq1, StringFrom_run_cons _ _ _ _ _ _ hinner,
    StringFrom_run_cons _ _ _ _ _ _ hq2,
    StringFrom_run_nil pi hwf (s.length + 2) (by omega), hspan]

theorem step_string_literal (bc : Int) (sb s tail : GoString)
    (hs : ∀ b ∈ s, b ≠ 34 ∧ b ≠ 92 ∧ b ≠ 10) (hne : s ≠ []) (pi : Input)
    (hrest : pi.rest = 34 :: (s ++ 34 :: tail)) :
    jsExpressionParser.step bc sb pi
      = .next bc (sb ++ 34 :: (s ++ [34])) (pi.advance (s.length + 2)) := by
  obtain ⟨c1, c2⟩ := comments_noMatch pi _ _ hrest (by decide)
  have c3 : string_lit pi = .ok (34 :: (s ++ [34])) (pi.advance (s.length + 2)) := by
    simp only [string_lit, parse.Any, interpreted_string_lit_eval s tail hs hne pi hrest]
  simp only [jsExpressionParser.step, tryParser, c1, c2, c3]

theorem step_closing_brace (sb tail : GoString) (pi : Input) (hrest : pi.rest = 125 :: tail) :
    jsExpressionParser.step 1 sb pi = .brk 0 sb pi := by
  have hwf := Input.wf_of_rest_cons pi _ _ hrest
  obtain ⟨c1, c2⟩ := comments_noMatch pi _ _ hrest (by decide)
  have c3 := string_lit_noMatch pi _ _ hrest (by decide) (by decide)
  have c4 := rune_lit_noMatch pi _ _ hrest (by decide)
  have c5 := openBrace_noMatch pi _ _ hrest (by decide)
  have c6 : closeBraceWithOptionalPadding pi = .ok (lit "\x7d") (pi.advance 1) := by
    rw [closeBrace_eval pi hwf, hrest]; rfl
  simp only [jsExpressionParser.step, tryParser, c1, c2, c3, c4, c5, c6, Input.Index,
    Input.Seek_advance pi 1 hwf]
  rfl

theorem Parse_of_loop (start : Int) (pi : Input) (st : Step)
    (h : jsExpressionParser.loop (pi.s.length - pi.charIndex + 1) start [] pi = st) :
    jsExpressionParser.Parse start pi = jsExpressionParser.finish pi.charIndex st := by
  simp only [jsExpressionParser.Parse, Input.Index, h]

theorem mem_of_atCloser (pi : Input) (n : Nat) (h : (pi.advance n).atCloser) :
    (125 : UInt8) ∈ pi.rest := by
  have hm : (125 : UInt8) ∈ (pi.advance n).rest := by
    rcases h with h | h
    · obtain ⟨r, hr⟩ := (HasPrefix_iff _ _).1 h
      rw [← hr, show lit " \x7d" = [32, 125] from rfl]; simp
    · obtain ⟨r, hr⟩ := (HasPrefix_iff _ _).1 h
      rw [← hr, show lit "\x7d" = [125] from rfl]; simp
  rw [Input.rest_advance] at hm
  exact List.mem_of_mem_drop hm

/-- Literal opacity for a string literal that is not empty. For every string body `s`
of one byte or more without `"`, backslash and line feed (braces are allowed) and every
text `rest`, `jsExp` on the input `"`, `s`, `"`, `}`, `rest` succeeds, returns the text
`"`, `s`, `"`, and leaves the cursor right before the `}` that follows the literal. -/
theorem jsExp_string_literal (s rest : GoString) (hs : ∀ b ∈ s, b ≠ 34 ∧ b ≠ 92 ∧ b ≠ 10)
    (hne : s ≠ []) :
    jsExp (NewInput (lit "\x22" ++ s ++ lit "\x22" ++ lit "\x7d" ++ rest))
      = .ok ⟨lit "\x22" ++ s ++ lit "\x22", 0, s.length + 2⟩
          ⟨lit "\x22" ++ s ++ lit "\x22" ++ lit "\x7d" ++ rest, s.length + 2⟩ ∧
    Input.rest ⟨lit "\x22" ++ s ++ lit "\x22" ++ lit "\x7d" ++ rest, s.length + 2⟩
      = lit "\x7d" ++ rest := by
  have hin : lit "\x22" ++ s ++ lit "\x22" ++ lit "\x7d" ++ rest = 34 :: (s ++ 34 :: 125 :: rest) := by
    rw [show lit "\x22" = [34] from rfl, show lit "\x7d" = [125] from rfl]
    simp
  rw [hin]
  have hrest0 : (NewInput (34 :: (s ++ 34 :: 125 :: rest))).rest
      = 34 :: (s ++ 34 :: 125 :: rest) := rfl
  have h1 := step_string_literal 1 [] s (125 :: rest) hs hne _ hrest0
  have hrest1 : ((NewInput (34 :: (s ++ 34 :: 125 :: rest))).advance (s.length + 2)).rest
      = 125 :: rest := by
    rw [Input.rest_advance, hrest0]
    simp
  have h2 := step_closing_brace ([] ++ 34 :: (s ++ [34])) rest _ hrest1
  have hfuel : (NewInput (34 :: (s ++ 34 :: 125 :: rest))).s.length
      - (NewInput (34 :: (s ++ 34 :: 125 :: rest))).charIndex + 1
      = (s.length + rest.length + 2) + 1 + 1 := by
    simp only [NewInput, List.length_cons, List.length_append]; omega
  have hloop := loop_next (s.length + rest.length + 2 + 1) _ _ _ _ _ _ h1
  rw [loop_brk _ _ _ _ _ _ _ h2, ← hfuel] at hloop
  constructor
  · rw [jsExp, Parse_of_loop 1 _ _ hloop]
    simp [jsExpressionParser.finish, NewInput, Input.advance, Input.Index,
      show lit "\x22" = [34] from rfl]
  · have e : (⟨34 :: (s ++ 34 :: 125 :: rest), s.length + 2⟩ : Input)
        = (NewInput (34 :: (s ++ 34 :: 125 :: rest))).advance (s.length + 2) := by
      simp [NewInput, Input.advance]
    rw [e, hrest1]; rfl

/-- The example of the specification: scanning `"}"}rest` returns `"}"` with the
cursor at offset 3. -/
theorem jsExp_string_literal_witness :
    jsExp (NewInput (lit "\x22" ++ lit "\x7d" ++ lit "\x22" ++ lit "\x7d" ++ lit "rest"))
      = .ok ⟨lit "\x22" ++ lit "\x7d" ++ lit "\x22", 0, (lit "\x7d").length + 2⟩
          ⟨lit "\x22" ++ lit "\x7d" ++ lit "\x22" ++ lit "\x7d" ++ lit "rest",
            (lit "\x7d").length + 2⟩ ∧
    Input.rest ⟨lit "\x22" ++ lit "\x7d" ++ lit "\x22" ++ lit "\x7d" ++ lit "rest",
        (lit "\x7d").length + 2⟩
      = lit "\x7d" ++ lit "rest" :=
  jsExp_string_literal (lit "\x7d") (lit "rest") (by decide) (by decide)

/-- Claim C7 fails on the empty string body, with the text `"` after the closing brace:
the input is `""}"`. `parse.Until` reads one element before it tries the delimiter, so
`interpreted_string_lit` does not match the empty literal `""`. The scanner takes the
first `"` as an ordinary byte, then reads `"}"` as a string literal that swallows the
closing brace, and `jsExp` fails with the error `expression: unexpected brace count`
at offset 4, instead of returning `""` with the cursor at offset 2. -/
theorem jsExp_empty_string_literal :
    interpreted_string_lit (NewInput (lit "\x22\x22")) = .noMatch (NewInput (lit "\x22\x22")) ∧
    jsExpressionParser.step 1 [] (NewInput (lit "\x22\x22\x7d\x22"))
      = .next 1 (lit "\x22") ⟨lit "\x22\x22\x7d\x22", 1⟩ ∧
    jsExpressionParser.step 1 (lit "\x22") ⟨lit "\x22\x22\x7d\x22", 1⟩
      = .next 1 (lit "\x22\x22\x7d\x22") ⟨lit "\x22\x22\x7d\x22", 4⟩ ∧
    jsExp (NewInput (lit "\x22" ++ [] ++ lit "\x22" ++ lit "\x7d" ++ lit "\x22"))
      = .error ⟨"expression: unexpected brace count", 4⟩ ⟨lit "\x22\x22\x7d\x22", 4⟩ := by
  refine ⟨?_, ?_, ?_, ?_⟩ <;> decide

/-- Claim C8. Whenever `jsExpressionParser.Parse` succeeds, from any cursor within the
text and with any initial depth, the cursor has moved forward within the same text,
the range of the returned `Expression` runs from the start index to the final index,
and its text is exactly the bytes of the input between the two. -/
theorem Parse_text_is_span (startBraceCount : Int) (pi : Input) (hwf : pi.wf)
    (e : Expression) (pi1 : Input)
    (h : jsExpressionParser.Parse startBraceCount pi = .ok e pi1) :
    pi1.s = pi.s ∧ pi.charIndex ≤ pi1.charIndex ∧ pi1.charIndex ≤ pi.s.length ∧
    e.From = pi.charIndex ∧ e.To = pi1.charIndex ∧
    e.Value = (pi.s.drop pi.charIndex).take (pi1.charIndex - pi.charIndex) := by
  have hw : pi.charIndex ≤ pi.s.length := hwf
  rcases loop_cases (pi.s.length - pi.charIndex + 1) startBraceCount [] pi hwf (by omega) with
    ⟨n, hn, -, hr⟩ | ⟨n, bc1, hn, -, hr⟩ | ⟨pos, pi2, -, hr⟩
  · rw [Parse_of_loop _ _ _ hr] at h
    simp only [jsExpressionParser.finish, ne_eq, not_true_eq_false, if_false, Res.ok.injEq] at h
    obtain ⟨rfl, rfl⟩ := h
    simp [Input.advance, Input.Index, Input.span, Input.rest, hn]
  · rw [Parse_of_loop _ _ _ hr] at h
    simp only [jsExpressionParser.finish] at h
    by_cases hb : bc1 = 0
    · simp only [hb, ne_eq, not_true_eq_false, if_false, Res.ok.injEq] at h
      obtain ⟨rfl, rfl⟩ := h
      simp [Input.advance, Input.Index, Input.span, Input.rest]
      omega
    · simp [hb] at h
  · rw [Parse_of_loop _ _ _ hr] at h
    simp [jsExpressionParser.finish] at h

/-- Witness for C8: on `a{b}c }` the scanner returns `a{b}c`, the first five bytes. -/
theorem Parse_text_is_span_witness :
    lit "a\x7bb\x7dc" = ((lit "a\x7bb\x7dc \x7d").drop 0).take (5 - 0) :=
  (Parse_text_is_span 1 (NewInput (lit "a\x7bb\x7dc \x7d")) (Nat.zero_le _)
    ⟨lit "a\x7bb\x7dc", 0, 5⟩ ⟨lit "a\x7bb\x7dc \x7d", 5⟩ (by decide)).2.2.2.2.2

/-- Claim C9. Whenever the scanner started with depth 1 succeeds, the closing brace
that brought the depth to zero is not consumed: the unread input begins with `}`, or
with one blank and `}`. -/
theorem jsExp_stops_before_closer (pi : Input) (hwf : pi.wf) (e : Expression) (pi1 : Input)
    (h : jsExp pi = .ok e pi1) :
    HasPrefix pi1.rest (lit "\x7d") = true ∨ HasPrefix pi1.rest (lit " \x7d") = true := by
  have hw : pi.charIndex ≤ pi.s.length := hwf
  rcases loop_cases (pi.s.length - pi.charIndex + 1) 1 [] pi hwf (by omega) with
    ⟨n, hn, hc, hr⟩ | ⟨n, bc1, hn, hb, hr⟩ | ⟨pos, pi2, hb, hr⟩
  · rw [jsExp, Parse_of_loop _ _ _ hr] at h
    simp only [jsExpressionParser.finish, ne_eq, not_true_eq_false, if_false, Res.ok.injEq] at h
    obtain ⟨-, rfl⟩ := h
    exact hc.symm
  · rw [jsExp, Parse_of_loop _ _ _ hr] at h
    have : bc1 ≠ 0 := by have := hb (le_refl _); omega
    simp [jsExpressionParser.finish, this] at h
  · omega

/-- Witness for C9: on `a{b}c }` the cursor stops at offset 5, before ` }`. -/
theorem jsExp_stops_before_closer_witness :
    HasPrefix (Input.rest ⟨lit "a\x7bb\x7dc \x7d", 5⟩) (lit "\x7d") = true ∨
    HasPrefix (Input.rest ⟨lit "a\x7bb\x7dc \x7d", 5⟩) (lit " \x7d") = true :=
  jsExp_stops_before_closer (NewInput (lit "a\x7bb\x7dc \x7d")) (Nat.zero_le _)
    ⟨lit "a\x7bb\x7dc", 0, 5⟩ ⟨lit "a\x7bb\x7dc \x7d", 5⟩ (by decide)

/-- Claim C10. Whenever the loop of `jsExpressionParser.Parse` is left with a depth
other than zero, `Parse` returns the error `expression: unexpected brace count`, at
the cursor where the loop stopped, and no `Expression`. In particular, on every input
whose unread part has no `}` byte, the scanner with initial depth 1 reads to the end
of the input and fails with that error. -/
theorem Parse_unbalanced :
    (∀ (start : Int) (pi : Input) (bc : Int) (sb : GoString) (pi1 : Input),
      jsExpressionParser.loop (pi.s.length - pi.charIndex + 1) start [] pi = .brk bc sb pi1 →
      bc ≠ 0 →
      jsExpressionParser.Parse start pi
        = .error ⟨"expression: unexpected brace count", pi1.charIndex⟩ pi1) ∧
    (∀ pi : Input, pi.wf → (125 : UInt8) ∉ pi.rest →
      jsExp pi = .error ⟨"expression: unexpected brace count", pi.s.length⟩
        ⟨pi.s, pi.s.length⟩) := by
  constructor
  · intro start pi bc sb pi1 hl hb
    rw [Parse_of_loop _ _ _ hl]
    simp [jsExpressionParser.finish, hb, Input.Index]
  · intro pi hwf hno
    have hw : pi.charIndex ≤ pi.s.length := hwf
    rcases loop_cases (pi.s.length - pi.charIndex + 1) 1 [] pi hwf (by omega) with
      ⟨n, hn, hc, hr⟩ | ⟨n, bc1, hn, hb, hr⟩ | ⟨pos, pi2, hb, hr⟩
    · exact absurd (mem_of_atCloser pi n hc) hno
    · rw [jsExp, Parse_of_loop _ _ _ hr]
      have : bc1 ≠ 0 := by have := hb (le_refl _); omega
      simp [jsExpressionParser.finish, this, Input.Index, Input.advance, hn]
    · omega

/-- Witness for C10: with initial depth 2 the input `a}` ends at depth 1, and with
initial depth 1 the input `abc` has no closing brace. -/
theorem Parse_unbalanced_witness :
    jsExpressionParser.Parse 2 (NewInput (lit "a\x7d"))
      = .error ⟨"expression: unexpected brace count", 2⟩ ⟨lit "a\x7d", 2⟩ ∧
    jsExp (NewInput (lit "abc"))
      = .error ⟨"expression: unexpected brace count", 3⟩ ⟨lit "abc", 3⟩ :=
  ⟨Parse_unbalanced.1 2 (NewInput (lit "a\x7d")) 1 (lit "a\x7d") ⟨lit "a\x7d", 2⟩
    (by decide) (by decide),
   Parse_unbalanced.2 (NewInput (lit "abc")) (Nat.zero_le _) (by decide)⟩

/-! ## Failure cases of the extraction: claims C11 to C13 -/

theorem parseExp_of_empty_body (ParseFile : GoFrontEnd) (content : GoString) (file : File)
    (perr : Option GoError) (others : List Decl) (ex : Extractor)
    (hparse : ParseFile (scaffold ++ content) = (some file, perr))
    (hdecls : file.Decls = Decl.FuncDecl (lit "templ_container") (some []) :: others)
    (hothers : ∀ d ∈ others, d = Decl.OtherDecl) :
    parseExp ParseFile content ex = some ([], none) := by
  simp [parseExp, hparse, hdecls, parseExp.inspect, inspect_others _ _ _ hothers]

theorem no_else_match (content : GoString) (h : HasPrefix content (lit "else") = false) :
    elseRegex.FindString content = [] ∧ elseIfRegex.FindStringSubmatch content = [] := by
  simp [elseRegex.FindString, elseIfRegex.FindStringSubmatch, h]

/-- Claim C11, as amended. Let the parse of `scaffold ++ content` have `templ_container`
as its only function declaration, with a body that has no statements. Then `parseExp`
returns, for every rule, the empty text and a nil error: there is no error for an empty
body. And when `content` begins with none of `else`, `case` and `default`,
`ParseExpression content` has a nil error too, with the text `...` when `content`
begins with these three dots and the empty text otherwise. -/
theorem parseExp_empty_body (ParseFile : GoFrontEnd) (content : GoString) (file : File)
    (perr : Option GoError) (others : List Decl)
    (hparse : ParseFile (scaffold ++ content) = (some file, perr))
    (hdecls : file.Decls = Decl.FuncDecl (lit "templ_container") (some []) :: others)
    (hothers : ∀ d ∈ others, d = Decl.OtherDecl)
    (helse : HasPrefix content (lit "else") = false)
    (hcase : HasPrefix content (lit "case") = false)
    (hdefault : HasPrefix content (lit "default") = false) :
    (∀ ex, parseExp ParseFile content ex = some ([], none)) ∧
    ParseExpression ParseFile content
      = some (if HasPrefix content (lit "...") then lit "..." else [], none) := by
  have hp := fun ex => parseExp_of_empty_body ParseFile content file perr others ex
    hparse hdecls hothers
  refine ⟨hp, ?_⟩
  obtain ⟨h1, h2⟩ := no_else_match content helse
  have hs := slice_nat content 0 content.length (Nat.zero_le _) (le_refl _)
  simp only [List.drop_zero, Nat.sub_zero, List.take_length] at hs
  have hs0 : slice content (([] : GoString).length : Int) (content.length : Int)
      = some content := hs
  by_cases hif : HasPrefix content (lit "if") = true
  · obtain ⟨r, rfl⟩ := (HasPrefix_iff _ _).1 hif
    simp [ParseExpression, h1, h2, hcase, hdefault, prefixDispatch, prefixTable, hif, hp]
    intro h
    have hf : HasPrefix (lit "if" ++ r) (lit "...") = false := rfl
    rw [hf] at h
    exact absurd h (by simp)
  by_cases hfor : HasPrefix content (lit "for") = true
  · obtain ⟨r, rfl⟩ := (HasPrefix_iff _ _).1 hfor
    simp [ParseExpression, h1, h2, hcase, hdefault, prefixDispatch, prefixTable, hif, hfor, hp]
    intro h
    have hf : HasPrefix (lit "for" ++ r) (lit "...") = false := rfl
    rw [hf] at h
    exact absurd h (by simp)
  by_cases hsw : HasPrefix content (lit "switch") = true
  · obtain ⟨r, rfl⟩ := (HasPrefix_iff _ _).1 hsw
    simp [ParseExpression, h1, h2, hcase, hdefault, prefixDispatch, prefixTable, hif, hfor, hsw,
      hp]
    intro h
    have hf : HasPrefix (lit "switch" ++ r) (lit "...") = false := rfl
    rw [hf] at h
    exact absurd h (by simp)
  simp only [Bool.not_eq_true] at hif hfor hsw
  simp only [ParseExpression, h1, h2, hcase, hdefault, hif, hfor, hsw, hp, hs0, prefixDispatch,
    prefixTable, ne_eq, not_true_eq_false, if_false, List.length_nil, gt_iff_lt,
    Nat.not_lt_zero, Bool.or_self, Bool.false_eq_true]
  have hs1 : slice content 0 (content.length : Int) = some content := hs
  by_cases hd : HasPrefix content (lit "...") = true
  · have := take_of_HasPrefix _ _ hd
    rw [show (lit "...").length = 3 from rfl] at this
    simp [hd, this, hs1]
  · simp [hd, hs1]

/-- Witness for C11: the content `}`, which leaves the container function empty. -/
theorem parseExp_empty_body_witness :
    (∀ ex, parseExp (frontEndOn (scaffold ++ emptyContent) emptyFile none) emptyContent ex
      = some ([], none)) ∧
    ParseExpression (frontEndOn (scaffold ++ emptyContent) emptyFile none) emptyContent
      = some (if HasPrefix emptyContent (lit "...") then lit "..." else [], none) :=
  parseExp_empty_body (frontEndOn (scaffold ++ emptyContent) emptyFile none) emptyContent
    emptyFile none [] (if_pos rfl) rfl (by simp) (by decide) (by decide) (by decide)

/-- Counterexample to C11 as stated. On the content `}` and on the content `// c`,
newline, `}` the scaffolded unit parses without error and the body of
`templ_container` has no statements; `parseExp` with the Expr rule and
`ParseExpression` return the empty text with a nil error, not an error. -/
theorem parseExp_empty_body_no_error :
    frontEndOn (scaffold ++ emptyContent) emptyFile none (scaffold ++ emptyContent)
      = (some emptyFile, none) ∧
    emptyFile.Decls = [.FuncDecl (lit "templ_container") (some [])] ∧
    parseExp (frontEndOn (scaffold ++ emptyContent) emptyFile none) emptyContent
      .ExprExtractor = some ([], none) ∧
    ParseExpression (frontEndOn (scaffold ++ emptyContent) emptyFile none) emptyContent
      = some ([], none) ∧
    ParseExpression (frontEndOn (scaffold ++ commentContent) emptyFile none) commentContent
      = some ([], none) := by
  refine ⟨if_pos rfl, rfl, ?_, ?_, ?_⟩ <;> decide

/-- Claim C12. For every source text and every non-empty statement list whose first
statement is not of the node type the rule requires, the rule's method `Code` returns
the empty text together with `ErrExpectedNodeNotFound`. -/
theorem Code_structure_mismatch (ex : Extractor) (src : GoString) (stmt : Stmt)
    (more : List Stmt) (h : ex.accepts stmt = false) :
    ex.Code src (stmt :: more) = some ([], some .ErrExpectedNodeNotFound) := by
  cases ex <;> cases stmt <;> first
    | rfl
    | exact absurd h (by simp [Extractor.accepts])

/-- Witness for C12: the Expr rule on a statement list that starts with an if
statement, and the If rule on one that starts with an expression statement. -/
theorem Code_structure_mismatch_witness :
    Extractor.ExprExtractor.Code (scaffold ++ ifContent) [.IfStmt 39 60 63]
      = some ([], some .ErrExpectedNodeNotFound) ∧
    Extractor.IfExtractor.Code (scaffold ++ exprContent) [.ExprStmt 39 40]
      = some ([], some .ErrExpectedNodeNotFound) :=
  ⟨Code_structure_mismatch .ExprExtractor _ (.IfStmt 39 60 63) [] rfl,
   Code_structure_mismatch .IfExtractor _ (.ExprStmt 39 40) [] rfl⟩

/-- Claim C13, as amended. Let the parse of `scaffold ++ content` have `templ_container`
as its only function declaration, with a non-empty body whose first statement is not a
switch statement. Then the Case rule applied directly to `content` returns the empty
text together with `ErrExpectedNodeNotFound`. -/
theorem parseExp_case_not_switch (ParseFile : GoFrontEnd) (content : GoString) (file : File)
    (perr : Option GoError) (stmt : Stmt) (more : List Stmt) (others : List Decl)
    (hparse : ParseFile (scaffold ++ content) = (some file, perr))
    (hdecls : file.Decls = Decl.FuncDecl (lit "templ_container") (some (stmt :: more))
      :: others)
    (hothers : ∀ d ∈ others, d = Decl.OtherDecl)
    (hstmt : ∀ s l b e, stmt ≠ Stmt.SwitchStmt s l b e) :
    parseExp ParseFile content .CaseExtractor = some ([], some .ErrExpectedNodeNotFound) := by
  have hcode : Extractor.CaseExtractor.Code (scaffold ++ content) (stmt :: more)
      = some ([], some .ErrExpectedNodeNotFound) := by
    cases stmt <;> first
      | rfl
      | exact absurd rfl (hstmt _ _ _ _)
  simp [parseExp, hparse, hdecls, parseExp.inspect, hcode, inspect_others _ _ _ hothers]

/-- Witness for C13: the bare expression `x`. -/
theorem parseExp_case_not_switch_witness :
    parseExp (frontEndOn (scaffold ++ exprContent) exprFile none) exprContent .CaseExtractor
      = some ([], some .ErrExpectedNodeNotFound) :=
  parseExp_case_not_switch (frontEndOn (scaffold ++ exprContent) exprFile none) exprContent
    exprFile none (.ExprStmt 39 40) [] [] (if_pos rfl) rfl (by simp)
    (fun _ _ _ _ h => Stmt.noConfusion h)

/-- Counterexample to C13 as stated, on two contents that begin with `switch`, not with
`case` or `default`. On `switch {`, newline, `}`, newline, `}` the first statement is a
switch statement without clauses, and the Case rule panics on `sw.Body.List[0]`. On
`switch {`, newline, `case 1:`, newline, `}`, newline, `}` the Case rule returns the
text `case 1:` with a nil error. -/
theorem parseExp_case_direct :
    HasPrefix noClauseContent (lit "case") = false ∧
    HasPrefix noClauseContent (lit "default") = false ∧
    parseExp (frontEndOn (scaffold ++ noClauseContent) noClauseFile none) noClauseContent
      .CaseExtractor = none ∧
    HasPrefix switchCaseContent (lit "case") = false ∧
    HasPrefix switchCaseContent (lit "default") = false ∧
    parseExp (frontEndOn (scaffold ++ switchCaseContent) switchCaseFile none)
      switchCaseContent .CaseExtractor = some (lit "case 1:", none) := by
  refine ⟨?_, ?_, ?_, ?_, ?_, ?_⟩ <;> decide

/-! ## Function headers and the switch parser: claims C14 to C16 -/

/-- Claim C14 fails: `ParseFunc` does not return the header from the first byte of the
keyword `func`. Let the parse of `"package main\n" ++ content` have one function
declaration, at content offset `a`, whose body opens at content offset `k`. The
position `fn.Pos()` counts from one and is used as an index that counts from zero, so
`ParseFunc` returns `content[a+1:k]`, the header without its first byte, and not
`content[a:k]`. -/
theorem ParseFunc_skips_first_byte (ParseFile : GoFuncFrontEnd) (content : GoString)
    (perr : Option GoError) (a k : Nat)
    (hparse : ParseFile (lit "package main\n" ++ content)
      = (some [⟨(lit "package main\n").length + a + 1,
          some ((lit "package main\n").length + k + 1)⟩], perr))
    (ha : a < k) (hk : k ≤ content.length) :
    ParseFunc ParseFile content = some ((content.drop (a + 1)).take (k - (a + 1)), none) ∧
    (content.drop (a + 1)).take (k - (a + 1)) ≠ (content.drop a).take (k - a) := by
  constructor
  · have hs := slice_nat (lit "package main\n" ++ content)
      ((lit "package main\n").length + a + 1) ((lit "package main\n").length + k)
      (by omega) (by simp only [List.length_append]; omega)
    have e1 : ((((lit "package main\n").length + k + 1 : Nat) : Int) - 1)
        = (((lit "package main\n").length + k : Nat) : Int) := by push_cast; ring
    have e2 : (lit "package main\n" ++ content).drop ((lit "package main\n").length + a + 1)
        = content.drop (a + 1) := by
      rw [Nat.add_assoc, ← List.drop_drop, List.drop_left]
    have e3 : (lit "package main\n").length + k - ((lit "package main\n").length + a + 1)
        = k - (a + 1) := by omega
    rw [e2, e3] at hs
    simp only [ParseFunc, hparse, ParseFunc.inspect, e1, hs]
  · intro h
    have := congrArg List.length h
    simp only [List.length_take, List.length_drop] at this
    omega

/-- Witness for C14: on `func f() {}` the text returned is `unc f() `, not `func f() `;
and on two declarations, `func f() {}` and `func g() {}`, it is `unc g() `, taken from
the second one, on which the callback of `ast.Inspect` runs as well. -/
theorem ParseFunc_skips_first_byte_witness :
    (ParseFunc (funcFrontEndOn (lit "package main\n" ++ funcContent) funcNodes none)
        funcContent = some ((funcContent.drop (0 + 1)).take (9 - (0 + 1)), none) ∧
      (funcContent.drop (0 + 1)).take (9 - (0 + 1)) ≠ (funcContent.drop 0).take (9 - 0)) ∧
    (funcContent.drop (0 + 1)).take (9 - (0 + 1)) = lit "unc f() " ∧
    (funcContent.drop 0).take (9 - 0) = lit "func f() " ∧
    ParseFunc (funcFrontEndOn (lit "package main\n" ++ twoHeaderContent) twoHeaderNodes none)
      twoHeaderContent = some (lit "unc g() ", none) :=
  ⟨ParseFunc_skips_first_byte
      (funcFrontEndOn (lit "package main\n" ++ funcContent) funcNodes none) funcContent none
      0 9 (if_pos rfl) (by decide) (by decide),
    by decide, by decide, by decide⟩

theorem String_noMatch (m : GoString) (pi : Input) (h : HasPrefix pi.rest m = false) :
    parse.String m pi = .noMatch pi := by
  unfold parse.String
  rw [Input.Peek_eq, Input.Take_eq]
  by_cases hlen : pi.charIndex + m.length ≤ pi.s.length
  · have hm : pi.span m.length ≠ m := fun hm => by
      have := HasPrefix_of_take pi.rest m hm
      rw [h] at this
      exact Bool.false_ne_true this
    simp [hlen, hm]
  · simp [hlen]

theorem String_ok (m : GoString) (pi : Input) (v : GoString) (pi1 : Input)
    (h : parse.String m pi = .ok v pi1) :
    HasPrefix pi.rest m = true ∧ pi1 = pi.advance m.length := by
  cases hp : HasPrefix pi.rest m with
  | false => rw [String_noMatch m pi hp] at h; exact Res.noConfusion h
  | true =>
    have hlen := HasPrefix_length _ _ hp
    rw [Input.rest_length] at hlen
    have hl : pi.charIndex + m.length ≤ pi.s.length ∨ m.length = 0 := by omega
    refine ⟨rfl, ?_⟩
    have hspan : pi.span m.length = m := take_of_HasPrefix _ _ hp
    unfold parse.String at h
    rw [Input.Peek_eq, Input.Take_eq] at h
    by_cases hlen2 : pi.charIndex + m.length ≤ pi.s.length
    · simp only [hlen2, if_true, hspan] at h
      injection h with h1 h2
      exact h2.symm
    · simp only [hlen2, if_false] at h
      exact Res.noConfusion h

/-- Claim C15. For every cursor whose unread text does not begin with `switch ` (the
keyword and one blank), `switchExpressionParser.Parse` returns no node, `ok = false`
and a nil error, and the cursor is where it was, whatever the front end, the parser of
child nodes and the number of passes allowed to the loop over the clauses. -/
theorem switch_soft_non_match {N D : Type} (deps : SwitchDeps N D) (fuel : Nat) (pi : Input)
    (h : HasPrefix pi.PeekRest (lit "switch ") = false) :
    switchExpressionParser.Parse deps fuel pi = some (.noMatch pi) := by
  have hs : parse.String (lit "switch ") pi = .noMatch pi := String_noMatch _ pi h
  simp only [switchExpressionParser.Parse, hs]

/-- Witness for C15: the text `switchx {`, with no blank after the keyword, and the
text `if x {`. -/
theorem switch_soft_non_match_witness :
    switchExpressionParser.Parse exprDeps 4 (NewInput (lit "switchx \x7b"))
      = some (.noMatch (NewInput (lit "switchx \x7b"))) ∧
    switchExpressionParser.Parse exprDeps 4 ⟨lit "<p>if x \x7b", 3⟩
      = some (.noMatch ⟨lit "<p>if x \x7b", 3⟩) :=
  ⟨switch_soft_non_match exprDeps 4 (NewInput (lit "switchx \x7b")) (by decide),
   switch_soft_non_match exprDeps 4 ⟨lit "<p>if x \x7b", 3⟩ (by decide)⟩

theorem slice_part (s : GoString) (lo hi : Int) (t : GoString) (h : slice s lo hi = some t) :
    t <:+: s := by
  unfold slice at h
  split at h
  · injection h with h
    rw [← h]
    exact (List.take_prefix _ _).isInfix.trans (List.drop_suffix _ _).isInfix
  · exact Option.noConfusion h

theorem getCode_part (src : GoString) (node : Stmt) (t : GoString)
    (h : getCode src node = some t) : t <:+: src := by
  unfold getCode at h
  split at h
  · injection h with h
    rw [← h]
    exact List.nil_infix
  · exact slice_part _ _ _ _ h

theorem headerCode_part (src : GoString) (stmt : Stmt) (kw lbrace : Nat) (t : GoString)
    (e : Option GoError) (h : headerCode src stmt kw lbrace = some (t, e)) : t <:+: src := by
  unfold headerCode at h
  cases hc : getCode src stmt with
  | none => rw [hc] at h; exact Option.noConfusion h
  | some code =>
    rw [hc] at h
    cases hs : slice code 0 ((lbrace : Int) - (kw : Int) + 1) with
    | none => simp only [hs] at h; exact Option.noConfusion h
    | some expr =>
      simp only [hs, Option.some.injEq, Prod.mk.injEq] at h
      rw [← h.1]
      exact (slice_part _ _ _ _ hs).trans (getCode_part _ _ _ hc)

/-- Whatever rule is applied, the text it returns is a contiguous part of the source
text. -/
theorem Code_part (ex : Extractor) (src : GoString) (list : List Stmt) (t : GoString)
    (e : Option GoError) (h : ex.Code src list = some (t, e)) : t <:+: src := by
  have nil : ∀ e1 : Option GoError, some (([] : GoString), e1) = some (t, e) → t <:+: src := by
    intro e1 h1
    simp only [Option.some.injEq, Prod.mk.injEq] at h1
    rw [← h1.1]
    exact List.nil_infix
  cases ex <;> cases list with
  | nil => exact Option.noConfusion h
  | cons stmt more =>
    cases stmt with
    | SwitchStmt s l b en =>
      first
      | exact headerCode_part _ _ _ _ _ _ h
      | exact nil _ h
      | (cases b with
          | nil => exact Option.noConfusion h
          | cons c cs =>
            cases c <;> first
              | exact nil _ h
              | (simp only [Extractor.Code, CaseExtractor.Code] at h
                 split at h
                 · exact Option.noConfusion h
                 · rename_i expr hs
                   simp only [Option.some.injEq, Prod.mk.injEq] at h
                   rw [← h.1]
                   exact slice_part _ _ _ _ hs))
    | ExprStmt p en =>
      first
      | exact nil _ h
      | (simp only [Extractor.Code, ExprExtractor.Code] at h
         split at h
         · exact Option.noConfusion h
         · rename_i expr hs
           simp only [Option.some.injEq, Prod.mk.injEq] at h
           rw [← h.1]
           exact getCode_part _ _ _ hs)
    | _ =>
      first
      | exact headerCode_part _ _ _ _ _ _ h
      | exact nil _ h

theorem inspect_part (src : GoString) (ex : Extractor) (decls : List Decl)
    (st : GoString × Option GoError) (t : GoString) (e : Option GoError)
    (hst : st.1 <:+: src) (h : parseExp.inspect src ex decls st = some (t, e)) :
    t <:+: src := by
  induction decls generalizing st with
  | nil =>
    simp only [parseExp.inspect, Option.some.injEq] at h
    rw [h] at hst
    exact hst
  | cons d ds ih =>
    obtain ⟨expr, err⟩ := st
    cases d with
    | OtherDecl => exact ih _ hst h
    | FuncDecl name body =>
      simp only [parseExp.inspect] at h
      split at h
      · exact ih (expr, some .ErrContainerFuncNotFound) hst h
      · cases body with
        | none => exact Option.noConfusion h
        | some list =>
          simp only at h
          split at h
          · exact ih _ hst h
          · cases hc : ex.Code src list with
            | none => rw [hc] at h; exact Option.noConfusion h
            | some st1 =>
              rw [hc] at h
              exact ih st1 (Code_part ex src list st1.1 st1.2 hc) h

theorem parseExp_part (ParseFile : GoFrontEnd) (content : GoString) (ex : Extractor)
    (t : GoString) (e : Option GoError) (h : parseExp ParseFile content ex = some (t, e)) :
    t <:+: scaffold ++ content := by
  unfold parseExp at h
  simp only at h
  split at h
  · simp only [Option.some.injEq, Prod.mk.injEq] at h
    rw [← h.1]
    exact List.nil_infix
  · exact inspect_part _ _ _ _ _ _ List.nil_infix h

/-- When `ParseExpression` dispatches to none of its prefixes, its text is the text of
the Expr rule, or that text and three dots. -/
theorem ParseExpression_bare (ParseFile : GoFrontEnd) (content t : GoString)
    (h1 : elseRegex.FindString content = [])
    (h2 : elseIfRegex.FindStringSubmatch content = [])
    (h3 : HasPrefix content (lit "case") = false)
    (h4 : HasPrefix content (lit "default") = false)
    (h5 : HasPrefix content (lit "if") = false)
    (h6 : HasPrefix content (lit "for") = false)
    (h7 : HasPrefix content (lit "switch") = false)
    (h : ParseExpression ParseFile content = some (t, none)) :
    ∃ e, parseExp ParseFile content .ExprExtractor = some (e, none) ∧
      (t = e ∨ t = e ++ lit "...") := by
  simp only [ParseExpression, h1, h2, h3, h4, h5, h6, h7, prefixDispatch, prefixTable,
    ne_eq, not_true_eq_false, if_false, List.length_nil, gt_iff_lt, Nat.not_lt_zero,
    Bool.or_self, Bool.false_eq_true] at h
  rcases hp : parseExp ParseFile content .ExprExtractor with _ | ⟨e, _ | err⟩
  · rw [hp] at h; exact Option.noConfusion h
  · rw [hp] at h
    refine ⟨e, rfl, ?_⟩
    simp only at h
    cases hs : slice content (e.length : Int) (content.length : Int) with
    | none => rw [hs] at h; exact Option.noConfusion h
    | some suffix =>
      rw [hs] at h
      simp only at h
      by_cases hd : HasPrefix suffix (lit "...") = true
      · have ht := take_of_HasPrefix _ _ hd
        rw [show (lit "...").length = 3 from rfl] at ht
        simp only [hd, if_true, ht, Option.some.injEq, Prod.mk.injEq, and_true] at h
        exact Or.inr h.symm
      · have hd1 : HasPrefix suffix (lit "...") = false := by simpa using hd
        simp only [hd1, Bool.false_eq_true, if_false, Option.some.injEq, Prod.mk.injEq,
          and_true] at h
        exact Or.inl h.symm
  · rw [hp] at h
    simp at h

theorem parseGoExpression_ok (ParseFile : GoFrontEnd) (name : String) (pi : Input)
    (e : Expression) (pi1 : Input)
    (h : parseGoExpression ParseFile name pi = some (.ok e pi1)) :
    ParseExpression ParseFile pi.PeekRest = some (e.Value, none) := by
  unfold parseGoExpression at h
  simp only at h
  rcases hp : ParseExpression ParseFile pi.PeekRest with _ | ⟨expr, _ | err⟩
  · rw [hp] at h; exact Option.noConfusion h
  · rw [hp] at h
    simp only [Option.some.injEq, Res.ok.injEq] at h
    rw [← h.1]
  · rw [hp] at h
    simp at h

/-- The subject of a switch node is what `parseGoExpression` returns right after the
prefix `switch `, which `parse.String` has consumed. -/
theorem switch_subject_eq {N D : Type} (deps : SwitchDeps N D) (fuel : Nat) (pi : Input)
    (r : SwitchExpression N D) (pi1 : Input)
    (h : switchExpressionParser.Parse deps fuel pi = some (.ok r pi1)) :
    HasPrefix pi.PeekRest (lit "switch ") = true ∧
    ParseExpression deps.ParseFile (pi.advance 7).PeekRest = some (r.Expression.Value, none) := by
  unfold switchExpressionParser.Parse at h
  cases hs : parse.String (lit "switch ") pi with
  | noMatch p => rw [hs] at h; simp at h
  | error e p => rw [hs] at h; simp at h
  | outOfFuel => rw [hs] at h; simp at h
  | ok v p =>
    obtain ⟨hp, rfl⟩ := String_ok _ _ _ _ hs
    refine ⟨hp, ?_⟩
    rw [hs] at h
    simp only at h
    cases hg : parseGoExpression deps.ParseFile "switch" (pi.advance (lit "switch ").length) with
    | none => rw [hg] at h; simp at h
    | some rg =>
      rw [hg] at h
      cases rg with
      | noMatch p => simp at h
      | error e p => simp at h
      | outOfFuel => simp at h
      | ok subject p2 =>
        have key := parseGoExpression_ok _ _ _ _ _ hg
        simp only at h
        cases hc : switchExpressionParser.cases deps fuel [] p2 with
        | none => rw [hc] at h; simp at h
        | some rc =>
          rw [hc] at h
          cases rc with
          | noMatch p => simp at h
          | error e p => simp at h
          | outOfFuel => simp at h
          | ok cs p3 =>
            simp only at h
            cases hb : closeBraceWithOptionalPadding p3 with
            | noMatch p => rw [hb] at h; simp at h
            | error e p => rw [hb] at h; simp at h
            | outOfFuel => rw [hb] at h; simp at h
            | ok v p4 =>
              rw [hb] at h
              simp only [Option.some.injEq, Res.ok.injEq] at h
              rw [← h.1]
              exact key

/-- Claim C16 fails: the subject of a switch node does not start at the keyword. For
every front end, every parser of child nodes and every number of passes allowed to the
loop over the clauses, whenever
`switchExpressionParser.Parse` succeeds, the prefix `switch ` has been consumed and the
subject is the text that `ParseExpression` returns on what follows the prefix. On the
input of the end-to-end example the text after the prefix is `x {`, newline, `case
1:` and so on; it begins with none of the prefixes of `ParseExpression`, so the Expr
rule is applied, and whatever the front end answers, the result is not a switch node
with the subject `switch x {`. On the input `switch x }` the parser succeeds, with the
subject `x`. -/
theorem switch_subject_without_keyword :
    (∀ (N D : Type) (deps : SwitchDeps N D) (fuel : Nat) (pi : Input)
        (r : SwitchExpression N D) (pi1 : Input),
      switchExpressionParser.Parse deps fuel pi = some (.ok r pi1) →
      HasPrefix pi.PeekRest (lit "switch ") = true ∧
      ParseExpression deps.ParseFile (pi.advance 7).PeekRest
        = some (r.Expression.Value, none)) ∧
    (∀ (N D : Type) (deps : SwitchDeps N D) (fuel from1 to1 : Nat)
        (cs : List (CaseExpression N D)) (pi1 : Input),
      switchExpressionParser.Parse deps fuel (NewInput switchSample)
        ≠ some (.ok ⟨⟨lit "switch x \x7b", from1, to1⟩, cs⟩ pi1)) ∧
    switchExpressionParser.Parse exprDeps 4 (NewInput (lit "switch x \x7d"))
      = some (.ok ⟨⟨lit "x", 7, 8⟩, []⟩ ⟨lit "switch x \x7d", 10⟩) := by
  refine ⟨fun N D deps fuel pi r pi1 h => switch_subject_eq deps fuel pi r pi1 h, ?_,
    by decide⟩
  intro N D deps fuel from1 to1 cs pi1 h
  obtain ⟨-, hp⟩ := switch_subject_eq deps fuel _ _ _ h
  have hp : ParseExpression deps.ParseFile (Input.advance (NewInput switchSample) 7).PeekRest
      = some (lit "switch x \x7b", none) := hp
  obtain ⟨e, he, ht⟩ := ParseExpression_bare deps.ParseFile _ _ (by decide) (by decide)
    (by decide) (by decide) (by decide) (by decide) (by decide) hp
  have hin := parseExp_part _ _ _ _ _ he
  have hno : (119 : UInt8) ∉ scaffold ++ (Input.advance (NewInput switchSample) 7).PeekRest := by
    decide
  rcases ht with ht | ht
  · have hm : (119 : UInt8) ∈ e := by
      rw [← ht]
      decide
    exact hno (hin.subset hm)
  · have := congrArg List.getLast? ht
    rw [List.getLast?_append] at this
    rw [show (lit "...").getLast? = some 46 from by decide,
      show (lit "switch x \x7b").getLast? = some 123 from by decide] at this
    simp [Option.or] at this

/-! ## The scanner: claims C17 to C20 -/

theorem step_next_advances (bc : Int) (sb : GoString) (pi : Input) (hwf : pi.wf)
    (bc1 : Int) (sb1 : GoString) (pi1 : Input)
    (h : jsExpressionParser.step bc sb pi = .next bc1 sb1 pi1) :
    ∃ n, 1 ≤ n ∧ pi.charIndex + n ≤ pi.s.length ∧ pi1 = pi.advance n ∧
      (bc1 = bc ∨ bc1 = bc + 1 ∨ (bc1 = bc - 1 ∧ 1 ≤ bc1)) := by
  rcases step_cases bc sb pi hwf with ⟨n, hn, hl, hs | hs⟩ | ⟨-, n, hn, hl, hs⟩ | ⟨-, hs⟩
  · rw [hs] at h
    injection h with h1 h2 h3
    exact ⟨n, hn, hl, h3.symm, Or.inl h1.symm⟩
  · rw [hs] at h
    injection h with h1 h2 h3
    exact ⟨n, hn, hl, h3.symm, Or.inr (Or.inl h1.symm)⟩
  · rw [hs] at h
    by_cases c1 : bc - 1 < 0
    · rw [if_pos c1] at h
      exact Step.noConfusion h
    · rw [if_neg c1] at h
      by_cases c2 : bc - 1 = 0
      · rw [if_pos c2] at h
        exact Step.noConfusion h
      · rw [if_neg c2] at h
        injection h with h1 h2 h3
        exact ⟨n, hn, hl, h3.symm, Or.inr (Or.inr ⟨h1.symm, by omega⟩)⟩
  · rw [hs] at h
    exact Step.noConfusion h

theorem passes_length (fuel : Nat) (bc : Int) (sb : GoString) (pi : Input) (hwf : pi.wf) :
    (jsExpressionParser.passes fuel bc sb pi).length ≤ pi.s.length - pi.charIndex + 1 := by
  induction fuel generalizing bc sb pi with
  | zero => simp [jsExpressionParser.passes]
  | succ fuel ih =>
    have hw : pi.charIndex ≤ pi.s.length := hwf
    simp only [jsExpressionParser.passes, List.length_cons]
    cases hs : jsExpressionParser.step bc sb pi with
    | next bc1 sb1 pi1 =>
      obtain ⟨n, hn, hl, rfl, -⟩ := step_next_advances bc sb pi hwf bc1 sb1 pi1 hs
      have := ih bc1 sb1 (pi.advance n) hl
      simp only [Input.advance] at this ⊢
      omega
    | brk _ _ _ => simp
    | ret _ => simp

theorem loop_fuel (fuel1 fuel2 : Nat) (bc : Int) (sb : GoString) (pi : Input) (hwf : pi.wf)
    (h1 : pi.s.length - pi.charIndex < fuel1) (h2 : pi.s.length - pi.charIndex < fuel2) :
    jsExpressionParser.loop fuel1 bc sb pi = jsExpressionParser.loop fuel2 bc sb pi := by
  induction fuel1 generalizing fuel2 bc sb pi with
  | zero => omega
  | succ fuel1 ih =>
    cases fuel2 with
    | zero => omega
    | succ fuel2 =>
      have hw : pi.charIndex ≤ pi.s.length := hwf
      cases hs : jsExpressionParser.step bc sb pi with
      | next bc1 sb1 pi1 =>
        obtain ⟨n, hn, hl, rfl, -⟩ := step_next_advances bc sb pi hwf bc1 sb1 pi1 hs
        rw [loop_next _ _ _ _ _ _ _ hs, loop_next _ _ _ _ _ _ _ hs]
        exact ih fuel2 bc1 sb1 (pi.advance n) hl (by simp only [Input.advance]; omega)
          (by simp only [Input.advance]; omega)
      | brk bc1 sb1 pi1 => rw [loop_brk _ _ _ _ _ _ _ hs, loop_brk _ _ _ _ _ _ _ hs]
      | ret r => rw [loop_ret _ _ _ _ _ hs, loop_ret _ _ _ _ _ hs]

theorem Parse_ok_or_error (start : Int) (pi : Input) (hwf : pi.wf) :
    (∃ e pi1, jsExpressionParser.Parse start pi = .ok e pi1) ∨
    (∃ err pi1, jsExpressionParser.Parse start pi = .error err pi1) := by
  have hw : pi.charIndex ≤ pi.s.length := hwf
  rcases loop_cases (pi.s.length - pi.charIndex + 1) start [] pi hwf (by omega) with
    ⟨n, hn, hc, hr⟩ | ⟨n, bc1, hn, hb, hr⟩ | ⟨pos, pi2, hb, hr⟩
  · left
    rw [Parse_of_loop _ _ _ hr]
    simp [jsExpressionParser.finish]
  · rw [Parse_of_loop _ _ _ hr]
    by_cases h0 : bc1 = 0
    · left
      simp [jsExpressionParser.finish, h0]
    · right
      simp [jsExpressionParser.finish, h0]
  · right
    rw [Parse_of_loop _ _ _ hr]
    exact ⟨_, _, rfl⟩

/-- Claim C17. From every cursor within its text and for every initial depth: each
pass through the loop of `jsExpressionParser.Parse` that goes on to a next pass keeps
the text and moves the cursor on by at least one byte, within the text; the loop makes
at most as many passes as there are bytes left, plus one, however many it is allowed;
its outcome is the same for every allowance above the number of bytes left; and
`Parse` returns either a success or an error. -/
theorem Parse_terminates (startBraceCount : Int) (pi : Input) (hwf : pi.wf) :
    (∀ bc sb bc1 sb1 pi1, jsExpressionParser.step bc sb pi = .next bc1 sb1 pi1 →
      pi1.s = pi.s ∧ pi.charIndex + 1 ≤ pi1.charIndex ∧ pi1.charIndex ≤ pi.s.length) ∧
    (∀ fuel sb, (jsExpressionParser.passes fuel startBraceCount sb pi).length
      ≤ pi.s.length - pi.charIndex + 1) ∧
    (∀ fuel, pi.s.length - pi.charIndex < fuel →
      jsExpressionParser.loop fuel startBraceCount [] pi
        = jsExpressionParser.loop (pi.s.length - pi.charIndex + 1) startBraceCount [] pi) ∧
    ((∃ e pi1, jsExpressionParser.Parse startBraceCount pi = .ok e pi1) ∨
     (∃ err pi1, jsExpressionParser.Parse startBraceCount pi = .error err pi1)) := by
  refine ⟨?_, ?_, ?_, Parse_ok_or_error startBraceCount pi hwf⟩
  · intro bc sb bc1 sb1 pi1 h
    obtain ⟨n, hn, hl, rfl, -⟩ := step_next_advances bc sb pi hwf bc1 sb1 pi1 h
    refine ⟨rfl, ?_, ?_⟩ <;> simp only [Input.advance] <;> omega
  · intro fuel sb
    exact passes_length fuel startBraceCount sb pi hwf
  · intro fuel hf
    exact loop_fuel _ _ _ _ _ hwf hf (by omega)

/-- Witness for C17: on `a{b}c }` with initial depth 1 the loop makes six passes,
whatever it is allowed above that, and `Parse` succeeds. -/
theorem Parse_terminates_witness :
    (jsExpressionParser.passes 100 1 [] (NewInput (lit "a\x7bb\x7dc \x7d"))).length
      ≤ (lit "a\x7bb\x7dc \x7d").length - 0 + 1 ∧
    (jsExpressionParser.passes 100 1 [] (NewInput (lit "a\x7bb\x7dc \x7d"))).length = 6 ∧
    jsExpressionParser.Parse 1 (NewInput (lit "a\x7bb\x7dc \x7d"))
      = .ok ⟨lit "a\x7bb\x7dc", 0, 5⟩ ⟨lit "a\x7bb\x7dc \x7d", 5⟩ :=
  ⟨(Parse_terminates 1 (NewInput (lit "a\x7bb\x7dc \x7d")) (Nat.zero_le _)).2.1 100 [],
    by decide, by decide⟩

/-- Claim C18 fails on the input `/*a*//*b*/}`. The first pass of the scanner takes
`/*a` only: the parser of block comments stops before the close marker and does not
take it. The `*` of the close marker is then read as an ordinary byte, and its `/`
starts, together with the `/` of the next comment, a line comment that runs to the end
of the input and swallows the closing brace: `jsExp` fails with the error `expression:
unexpected brace count` at offset 11, instead of returning `/*a*//*b*/`. -/
theorem jsExp_block_comments :
    jsOrGoMultiLineComment (NewInput (lit "/*a*//*b*/\x7d"))
      = .ok (lit "/*a") ⟨lit "/*a*//*b*/\x7d", 3⟩ ∧
    jsExpressionParser.step 1 [] (NewInput (lit "/*a*//*b*/\x7d"))
      = .next 1 (lit "/*a") ⟨lit "/*a*//*b*/\x7d", 3⟩ ∧
    jsExpressionParser.passes 12 1 [] (NewInput (lit "/*a*//*b*/\x7d"))
      = [(1, ⟨lit "/*a*//*b*/\x7d", 0⟩), (1, ⟨lit "/*a*//*b*/\x7d", 3⟩),
         (1, ⟨lit "/*a*//*b*/\x7d", 4⟩), (1, ⟨lit "/*a*//*b*/\x7d", 11⟩)] ∧
    jsExp (NewInput (lit "/*a*//*b*/\x7d"))
      = .error ⟨"expression: unexpected brace count", 11⟩ ⟨lit "/*a*//*b*/\x7d", 11⟩ := by
  refine ⟨?_, ?_, ?_, ?_⟩ <;> decide

/-- Claim C19 fails on the input that is the replacement character U+FFFD followed by
`}`. The fallback of the scanner reads one byte and compares that byte, a number below
256, with 65533, so the comparison never holds: the three bytes `EF BF BD` of the
character are taken and appended one by one, and `jsExp` succeeds with the character
as its text instead of stopping before it. -/
theorem jsExp_replacement_char :
    lit (String.singleton (Char.ofNat 65533)) = [239, 191, 189] ∧
    jsExpressionParser.step 1 [] (NewInput (lit (String.singleton (Char.ofNat 65533)) ++ lit "\x7d"))
      = .next 1 [239] ⟨[239, 191, 189, 125], 1⟩ ∧
    jsExp (NewInput (lit (String.singleton (Char.ofNat 65533)) ++ lit "\x7d"))
      = .ok ⟨[239, 191, 189], 0, 3⟩ ⟨[239, 191, 189, 125], 3⟩ ∧
    (∀ b : UInt8, b.toNat ≠ 65533) := by
  refine ⟨?_, ?_, ?_, ?_⟩
  · decide
  · decide
  · decide
  · intro b
    have := b.toNat_lt
    omega

theorem rest_of_atCloser (pi : Input) (hc : pi.atCloser) :
    ∃ b r, pi.rest = b :: r ∧ (b = 32 ∨ b = 125) := by
  rcases hc with h | h
  · obtain ⟨r, hr⟩ := (HasPrefix_iff _ _).1 h
    exact ⟨32, 125 :: r, hr.symm, Or.inl rfl⟩
  · obtain ⟨r, hr⟩ := (HasPrefix_iff _ _).1 h
    exact ⟨125, r, hr.symm, Or.inr rfl⟩

/-- At a closing brace, possibly after one blank, the pass takes the branch of the
closer: no comment, literal or opening brace starts with a blank or with `}`. -/
theorem step_atCloser (bc : Int) (sb : GoString) (pi : Input) (hc : pi.atCloser) :
    ∃ n, 1 ≤ n ∧ pi.charIndex + n ≤ pi.s.length ∧
      jsExpressionParser.step bc sb pi =
        (if bc - 1 < 0 then
          .ret (.error ⟨"expression: too many closing braces", pi.charIndex + n⟩ (pi.advance n))
         else if bc - 1 = 0 then .brk (bc - 1) sb pi
         else .next (bc - 1) (sb ++ pi.span n) (pi.advance n)) := by
  obtain ⟨b, r, hrest, hb⟩ := rest_of_atCloser pi hc
  have hwf := Input.wf_of_rest_cons pi _ _ hrest
  have hw : pi.charIndex ≤ pi.s.length := hwf
  obtain ⟨c1, c2⟩ := comments_noMatch pi _ _ hrest (by rcases hb with rfl | rfl <;> decide)
  have c3 := string_lit_noMatch pi _ _ hrest (by rcases hb with rfl | rfl <;> decide)
    (by rcases hb with rfl | rfl <;> decide)
  have c4 := rune_lit_noMatch pi _ _ hrest (by rcases hb with rfl | rfl <;> decide)
  have c5 := openBrace_noMatch pi _ _ hrest (by rcases hb with rfl | rfl <;> decide)
  simp only [jsExpressionParser.step, tryParser, c1, c2, c3, c4, c5, closeBrace_eval pi hwf,
    Input.Index]
  cases h1 : HasPrefix pi.rest (lit " \x7d")
  case true =>
    have hlen := HasPrefix_length _ _ h1
    rw [Input.rest_length, show (lit " \x7d").length = 2 from rfl] at hlen
    have hspan : pi.span 2 = lit " \x7d" := take_of_HasPrefix _ _ h1
    refine ⟨2, by omega, by omega, ?_⟩
    simp only [↓reduceIte, Input.Seek_advance pi 2 hwf, hspan]
    rfl
  cases h2 : HasPrefix pi.rest (lit "\x7d")
  case true =>
    have hlen := HasPrefix_length _ _ h2
    rw [Input.rest_length, show (lit "\x7d").length = 1 from rfl] at hlen
    have hspan : pi.span 1 = lit "\x7d" := take_of_HasPrefix _ _ h2
    refine ⟨1, by omega, by omega, ?_⟩
    simp only [Bool.false_eq_true, ↓reduceIte, Input.Seek_advance pi 1 hwf, hspan]
    rfl
  rcases hc with h | h
  · rw [h1] at h; exact absurd h (by simp)
  · rw [h2] at h; exact absurd h (by simp)

theorem step_ret_too_many (bc : Int) (sb : GoString) (pi : Input) (hwf : pi.wf)
    (r : Res Expression) (h : jsExpressionParser.step bc sb pi = .ret r) :
    bc ≤ 0 ∧ pi.atCloser := by
  rcases step_cases bc sb pi hwf with ⟨n, hn, hl, hs | hs⟩ | ⟨hc, n, hn, hl, hs⟩ | ⟨-, hs⟩
  · rw [hs] at h; exact Step.noConfusion h
  · rw [hs] at h; exact Step.noConfusion h
  · rw [hs] at h
    by_cases c1 : bc - 1 < 0
    · exact ⟨by omega, hc⟩
    · rw [if_neg c1] at h
      by_cases c2 : bc - 1 = 0
      · rw [if_pos c2] at h; exact Step.noConfusion h
      · rw [if_neg c2] at h; exact Step.noConfusion h
  · rw [hs] at h; exact Step.noConfusion h

theorem passes_depth (fuel : Nat) (bc : Int) (sb : GoString) (pi : Input) (hwf : pi.wf)
    (hbc : 1 ≤ bc) : ∀ st ∈ jsExpressionParser.passes fuel bc sb pi, 1 ≤ st.1 := by
  induction fuel generalizing bc sb pi with
  | zero => intro st h; simp [jsExpressionParser.passes] at h
  | succ fuel ih =>
    intro st h
    simp only [jsExpressionParser.passes, List.mem_cons] at h
    rcases h with rfl | h
    · exact hbc
    · cases hs : jsExpressionParser.step bc sb pi with
      | next bc1 sb1 pi1 =>
        rw [hs] at h
        obtain ⟨n, hn, hl, rfl, hd⟩ := step_next_advances bc sb pi hwf bc1 sb1 pi1 hs
        exact ih bc1 sb1 (pi.advance n) hl (by omega) st h
      | brk _ _ _ => rw [hs] at h; simp at h
      | ret _ => rw [hs] at h; simp at h

theorem loop_of_mem_passes (fuel : Nat) (bc : Int) (sb : GoString) (pi : Input)
    (st : Int × Input) (h : st ∈ jsExpressionParser.passes fuel bc sb pi) :
    ∃ fuel1 sb1, jsExpressionParser.loop fuel bc sb pi
      = jsExpressionParser.loop (fuel1 + 1) st.1 sb1 st.2 := by
  induction fuel generalizing bc sb pi with
  | zero => simp [jsExpressionParser.passes] at h
  | succ fuel ih =>
    simp only [jsExpressionParser.passes, List.mem_cons] at h
    rcases h with rfl | h
    · exact ⟨fuel, sb, rfl⟩
    · cases hs : jsExpressionParser.step bc sb pi with
      | next bc1 sb1 pi1 =>
        rw [hs] at h
        rw [loop_next _ _ _ _ _ _ _ hs]
        exact ih bc1 sb1 pi1 h
      | brk _ _ _ => rw [hs] at h; simp at h
      | ret _ => rw [hs] at h; simp at h

theorem loop_ret_mem_passes (fuel : Nat) (bc : Int) (sb : GoString) (pi : Input) (hwf : pi.wf)
    (e : ParseError) (pi1 : Input)
    (h : jsExpressionParser.loop fuel bc sb pi = .ret (.error e pi1)) :
    ∃ st ∈ jsExpressionParser.passes fuel bc sb pi, st.1 ≤ 0 ∧ st.2.atCloser := by
  induction fuel generalizing bc sb pi with
  | zero => simp [jsExpressionParser.loop] at h
  | succ fuel ih =>
    cases hs : jsExpressionParser.step bc sb pi with
    | next bc1 sb1 pi1 =>
      rw [loop_next _ _ _ _ _ _ _ hs] at h
      obtain ⟨n, hn, hl, rfl, -⟩ := step_next_advances bc sb pi hwf bc1 sb1 _ hs
      obtain ⟨st, hm, hst⟩ := ih bc1 sb1 (pi.advance n) hl h
      refine ⟨st, ?_, hst⟩
      simp only [jsExpressionParser.passes, hs, List.mem_cons]
      exact Or.inr hm
    | brk bc1 sb1 pi1 =>
      rw [loop_brk _ _ _ _ _ _ _ hs] at h
      exact Step.noConfusion h
    | ret r =>
      refine ⟨(bc, pi), ?_, step_ret_too_many bc sb pi hwf r hs⟩
      simp [jsExpressionParser.passes]

theorem Parse_too_many_iff (start : Int) (pi : Input) (hwf : pi.wf) :
    (∃ pos pi1, jsExpressionParser.Parse start pi
      = .error ⟨"expression: too many closing braces", pos⟩ pi1) ↔
    ∃ st ∈ jsExpressionParser.passes (pi.s.length - pi.charIndex + 1) start [] pi,
      st.1 ≤ 0 ∧ st.2.atCloser := by
  constructor
  · rintro ⟨pos, pi1, h⟩
    cases hl : jsExpressionParser.loop (pi.s.length - pi.charIndex + 1) start [] pi with
    | next bc1 sb1 pi2 =>
      rw [Parse_of_loop _ _ _ hl] at h
      simp [jsExpressionParser.finish] at h
    | brk bc1 sb1 pi2 =>
      rw [Parse_of_loop _ _ _ hl] at h
      by_cases h0 : bc1 = 0
      · simp [jsExpressionParser.finish, h0] at h
      · simp [jsExpressionParser.finish, h0] at h
    | ret r =>
      rw [Parse_of_loop _ _ _ hl] at h
      simp only [jsExpressionParser.finish] at h
      rw [h] at hl
      exact loop_ret_mem_passes _ _ _ _ hwf _ _ hl
  · rintro ⟨st, hm, hd, hc⟩
    obtain ⟨fuel1, sb1, hl⟩ := loop_of_mem_passes _ _ _ _ st hm
    obtain ⟨n, hn, hlen, hs⟩ := step_atCloser st.1 sb1 st.2 hc
    rw [if_pos (by omega)] at hs
    rw [loop_ret _ _ _ _ _ hs] at hl
    rw [Parse_of_loop _ _ _ hl]
    exact ⟨_, _, rfl⟩

/-- Claim C20. From every cursor within its text: when the scanner is started with an
initial depth of at least 1, the depth is at least 1 at the start of every pass
through its loop, and `Parse` (so `jsExp`, whose initial depth is 1) never returns the
error `expression: too many closing braces`. For every initial depth, that error is
returned if and only if the initial depth is at most 0 and some pass starts at a
closing brace (possibly after one blank) with a depth of at most 0. -/
theorem depth_invariant (start : Int) (pi : Input) (hwf : pi.wf) :
    (1 ≤ start →
      (∀ fuel, ∀ st ∈ jsExpressionParser.passes fuel start [] pi, 1 ≤ st.1) ∧
      ∀ pos pi1, jsExpressionParser.Parse start pi
        ≠ .error ⟨"expression: too many closing braces", pos⟩ pi1) ∧
    (∀ pos pi1, jsExp pi ≠ .error ⟨"expression: too many closing braces", pos⟩ pi1) ∧
    ((∃ pos pi1, jsExpressionParser.Parse start pi
        = .error ⟨"expression: too many closing braces", pos⟩ pi1) ↔
      start ≤ 0 ∧
      ∃ st ∈ jsExpressionParser.passes (pi.s.length - pi.charIndex + 1) start [] pi,
        st.1 ≤ 0 ∧ st.2.atCloser) := by
  have never : ∀ s : Int, 1 ≤ s → ∀ pos pi1, jsExpressionParser.Parse s pi
      ≠ .error ⟨"expression: too many closing braces", pos⟩ pi1 := by
    intro s hs pos pi1 h
    obtain ⟨st, hm, hd, -⟩ := (Parse_too_many_iff s pi hwf).1 ⟨pos, pi1, h⟩
    have := passes_depth _ s [] pi hwf hs st hm
    omega
  refine ⟨fun h1 => ⟨fun fuel => passes_depth fuel start [] pi hwf h1, never start h1⟩,
    never 1 (le_refl _), ?_⟩
  constructor
  · intro h
    refine ⟨?_, (Parse_too_many_iff start pi hwf).1 h⟩
    by_contra hc
    obtain ⟨pos, pi1, h⟩ := h
    exact never start (by omega) pos pi1 h
  · rintro ⟨-, h⟩
    exact (Parse_too_many_iff start pi hwf).2 h

/-- Witness for C20: on `a{b}c }` with initial depth 1 every pass starts with a depth
of at least 1, and on `}` with initial depth 0 the error is returned. -/
theorem depth_invariant_witness :
    (∀ st ∈ jsExpressionParser.passes 100 1 [] (NewInput (lit "a\x7bb\x7dc \x7d")), 1 ≤ st.1) ∧
    jsExpressionParser.passes 100 1 [] (NewInput (lit "a\x7bb\x7dc \x7d"))
      = [(1, ⟨lit "a\x7bb\x7dc \x7d", 0⟩), (1, ⟨lit "a\x7bb\x7dc \x7d", 1⟩),
         (2, ⟨lit "a\x7bb\x7dc \x7d", 2⟩), (2, ⟨lit "a\x7bb\x7dc \x7d", 3⟩),
         (1, ⟨lit "a\x7bb\x7dc \x7d", 4⟩), (1, ⟨lit "a\x7bb\x7dc \x7d", 5⟩)] ∧
    (∃ pos pi1, jsExpressionParser.Parse 0 (NewInput (lit "\x7d"))
      = .error ⟨"expression: too many closing braces", pos⟩ pi1) ∧
    jsExpressionParser.Parse 0 (NewInput (lit "\x7d"))
      = .error ⟨"expression: too many closing braces", 1⟩ ⟨lit "\x7d", 1⟩ :=
  ⟨((depth_invariant 1 (NewInput (lit "a\x7bb\x7dc \x7d")) (Nat.zero_le _)).1 (le_refl _)).1 100,
   by decide,
   (depth_invariant 0 (NewInput (lit "\x7d")) (Nat.zero_le _)).2.2.2
     ⟨le_refl _, (0, NewInput (lit "\x7d")), by decide, le_refl _, Or.inr (by decide)⟩,
   by decide⟩

/-! ## Dispatch on the first letters: claim C21 -/

theorem dispatch_keyword (content : GoString) (rule : Extractor)
    (hkw : (HasPrefix content (lit "if") = true ∧ rule = .IfExtractor) ∨
      (HasPrefix content (lit "for") = true ∧ rule = .ForExtractor) ∨
      (HasPrefix content (lit "switch") = true ∧ rule = .SwitchExtractor)) :
    elseRegex.FindString content = [] ∧ elseIfRegex.FindStringSubmatch content = [] ∧
    (HasPrefix content (lit "case") || HasPrefix content (lit "default")) = false ∧
    prefixDispatch content prefixTable = some rule := by
  rcases hkw with ⟨h, rfl⟩ | ⟨h, rfl⟩ | ⟨h, rfl⟩ <;>
    obtain ⟨r, rfl⟩ := (HasPrefix_iff _ _).1 h <;> exact ⟨rfl, rfl, rfl, rfl⟩

/-- A content that begins with `if`, `for` or `switch` goes to the rule of that
keyword, whatever follows the letters and whatever the front end answers. -/
theorem ParseExpression_of_keyword (ParseFile : GoFrontEnd) (content : GoString)
    (rule : Extractor)
    (hkw : (HasPrefix content (lit "if") = true ∧ rule = .IfExtractor) ∨
      (HasPrefix content (lit "for") = true ∧ rule = .ForExtractor) ∨
      (HasPrefix content (lit "switch") = true ∧ rule = .SwitchExtractor)) :
    ParseExpression ParseFile content = parseExp ParseFile content rule := by
  obtain ⟨h1, h2, h3, h4⟩ := dispatch_keyword content rule hkw
  simp only [Bool.or_eq_false_iff] at h3
  simp [ParseExpression, h1, h2, h3.1, h3.2, h4]

/-- The dispatch on the first letters, on a source without a later function
declaration. Let `content` begin with the letters `if` (resp. `for`,
`switch`), and let the parse of `scaffold ++ content` have `templ_container` as its
only function declaration, with a first statement that is an expression statement.
Then `ParseExpression content` is the If (resp. For, Switch) rule applied to
`content`; it returns the empty text together with `ErrExpectedNodeNotFound`; and that
is not what the Expr rule returns on `content`, which has a nil error. -/
theorem ParseExpression_keyword_letters (ParseFile : GoFrontEnd) (content : GoString)
    (rule : Extractor) (file : File) (perr : Option GoError) (p e : Nat) (more : List Stmt)
    (others : List Decl)
    (hkw : (HasPrefix content (lit "if") = true ∧ rule = .IfExtractor) ∨
      (HasPrefix content (lit "for") = true ∧ rule = .ForExtractor) ∨
      (HasPrefix content (lit "switch") = true ∧ rule = .SwitchExtractor))
    (hparse : ParseFile (scaffold ++ content) = (some file, perr))
    (hdecls : file.Decls = Decl.FuncDecl (lit "templ_container")
      (some (Stmt.ExprStmt p e :: more)) :: others)
    (hothers : ∀ d ∈ others, d = Decl.OtherDecl) :
    ParseExpression ParseFile content = parseExp ParseFile content rule ∧
    ParseExpression ParseFile content = some ([], some .ErrExpectedNodeNotFound) ∧
    (∀ t err, parseExp ParseFile content .ExprExtractor = some (t, err) → err = none) ∧
    ParseExpression ParseFile content ≠ parseExp ParseFile content .ExprExtractor := by
  have hd := ParseExpression_of_keyword ParseFile content rule hkw
  have hcode : rule.Code (scaffold ++ content) (Stmt.ExprStmt p e :: more)
      = some ([], some .ErrExpectedNodeNotFound) := by
    rcases hkw with ⟨-, rfl⟩ | ⟨-, rfl⟩ | ⟨-, rfl⟩ <;> rfl
  have hres : parseExp ParseFile content rule = some ([], some .ErrExpectedNodeNotFound) := by
    simp [parseExp, hparse, hdecls, parseExp.inspect, hcode, inspect_others _ _ _ hothers]
  have hexpr : ∀ t err, parseExp ParseFile content .ExprExtractor = some (t, err) →
      err = none := by
    intro t err h
    simp only [parseExp, hparse, hdecls, parseExp.inspect, Extractor.Code, ExprExtractor.Code,
      ne_eq, not_true_eq_false, if_false, List.length_cons] at h
    cases hg : getCode (scaffold ++ content) (Stmt.ExprStmt p e) with
    | none => simp [hg] at h
    | some code =>
      simp [hg, inspect_others _ _ _ hothers] at h
      exact h.2.symm
  refine ⟨hd, hd.trans hres, hexpr, ?_⟩
  intro h
  rw [hd, hres] at h
  have := hexpr _ _ h.symm
  exact Option.noConfusion this

/-- The calls `iframe()`, `format(x)` and `switcher.Render()` go to the If, For and
Switch rule and fail, where the Expr rule returns the call. -/
theorem ParseExpression_keyword_letters_witness :
    ParseExpression (frontEndOn (scaffold ++ iframeContent) iframeFile none) iframeContent
      = some ([], some .ErrExpectedNodeNotFound) ∧
    ParseExpression (frontEndOn (scaffold ++ formatContent) formatFile none) formatContent
      = some ([], some .ErrExpectedNodeNotFound) ∧
    ParseExpression (frontEndOn (scaffold ++ switcherContent) switcherFile none)
      switcherContent = some ([], some .ErrExpectedNodeNotFound) ∧
    parseExp (frontEndOn (scaffold ++ formatContent) formatFile none) formatContent
      .ExprExtractor = some (lit "format(x)", none) :=
  ⟨(ParseExpression_keyword_letters _ iframeContent .IfExtractor iframeFile none 39 47 [] []
      (Or.inl ⟨by decide, rfl⟩) (if_pos rfl) rfl (by simp)).2.1,
   (ParseExpression_keyword_letters _ formatContent .ForExtractor formatFile none 39 48 [] []
      (Or.inr (Or.inl ⟨by decide, rfl⟩)) (if_pos rfl) rfl (by simp)).2.1,
   (ParseExpression_keyword_letters _ switcherContent .SwitchExtractor switcherFile none 39 56
      [] [] (Or.inr (Or.inr ⟨by decide, rfl⟩)) (if_pos rfl) rfl (by simp)).2.1,
   by decide⟩

/-- Claim C21 fails on the content `iframe()`, newline, `}`, newline, `func f() {}`. It
begins with the letters `if`, parses without error, and the first statement of
`templ_container` is the expression statement `iframe()`. The If rule is applied and
returns `ErrExpectedNodeNotFound`, but the error that `ParseExpression` returns is
`ErrContainerFuncNotFound`: the callback of `ast.Inspect` also runs on the declaration
of `f`, after the container was found, and overwrites `err`. -/
theorem ParseExpression_keyword_second_func :
    HasPrefix iframeFuncContent (lit "if") = true ∧
    frontEndOn (scaffold ++ iframeFuncContent) iframeFuncFile none
      (scaffold ++ iframeFuncContent) = (some iframeFuncFile, none) ∧
    iframeFuncFile.Decls = [.FuncDecl (lit "templ_container") (some [.ExprStmt 39 47]),
      .FuncDecl (lit "f") (some [])] ∧
    getCode (scaffold ++ iframeFuncContent) (.ExprStmt 39 47) = some (lit "iframe()") ∧
    Extractor.IfExtractor.Code (scaffold ++ iframeFuncContent) [.ExprStmt 39 47]
      = some ([], some .ErrExpectedNodeNotFound) ∧
    ParseExpression (frontEndOn (scaffold ++ iframeFuncContent) iframeFuncFile none)
      iframeFuncContent = some ([], some .ErrContainerFuncNotFound) :=
  ⟨by decide, if_pos rfl, rfl, by decide, rfl, by decide⟩

end Templ
